import Mathlib

/-!
Verification of the classroom seating-plan solver (plandeclasse).

This file is a shallow embedding, in Lean 4, of the Python core under
`plandeclasse/`: the domain model (`modele/`), the constraint taxonomy
(`contraintes/`), the registry and UI translator (`fabrique_ui.py`,
`contraintes/registre.py`, `contraintes/enregistrement.py`), the sanity
checks, domain pre-computation and lexicographic driver of the CP-SAT
solver (`solveurs/cpsat.py`), and the final validators (`solveurs/base.py`
and the override in `solveurs/cpsat.py`).

Conventions of the embedding:
  * Python `int` becomes `Int`; student indices and seat indices (list
    positions) become `Nat`.
  * Python dicts become association lists with insert-with-overwrite
    semantics (`dinsert` / `dictOfList`); lookups take the value of the
    last writer, as a Python dict does.
  * Python `is` comparisons between `Eleve` objects are modelled as
    structural equality: within one solve every student has a unique
    stable name, and `Eleve.__eq__` / `__hash__` in `modele/eleve.py`
    compare by name.
  * Fallible code (raising `ValueError` / `KeyError` / `AssertionError`)
    returns `Except SolveErr`.
  * The external OR-Tools CP-SAT engine is not repository code; it is
    modelled from the spec as an oracle returning an optimum of the
    current model, realised here as exhaustive enumeration
    (see `pickOpt`).
-/

set_option maxHeartbeats 1000000

deriving instance DecidableEq for Except

namespace Plandeclasse

/-- Errors raised by the Python code: `ValueError`, `KeyError`, the
`assert` statements (`AssertionError`), attribute accesses on missing
enum members (`AttributeError`) and `int()` on non-numbers
(`TypeError`). -/
inductive SolveErr where
  | valueError (msg : String)
  | keyError (msg : String)
  | assertionError (msg : String)
  | attributeError (msg : String)
  | typeError (msg : String)
deriving DecidableEq, Repr

/-- True exactly on a `KeyError`. -/
def isKeyError {α : Type} : Except SolveErr α → Bool
  | .error (.keyError _) => true
  | _ => false

/-- True exactly on a `ValueError`. -/
def isValueError {α : Type} : Except SolveErr α → Bool
  | .error (.valueError _) => true
  | _ => false

/-- True on any error outcome. -/
def isErr {α : Type} : Except SolveErr α → Bool
  | .error _ => true
  | _ => false

/-- True on a success outcome. -/
def isOk {α : Type} : Except SolveErr α → Bool
  | .ok _ => true
  | _ => false

/-! ## Association lists with Python-dict semantics -/

/-- Insert with overwrite: the semantics of `d[key] = val` on a Python
dict (the key keeps its first-insertion position, the value is
replaced). -/
def dinsert {κ ν : Type} [DecidableEq κ] (l : List (κ × ν)) (key : κ) (val : ν) :
    List (κ × ν) :=
  if l.any (fun kv => kv.1 = key) then
    l.map (fun kv => if kv.1 = key then (key, val) else kv)
  else
    l ++ [(key, val)]

/-- Build a Python dict from a list of key/value pairs inserted in
order (later pairs overwrite earlier ones). -/
def dictOfList {κ ν : Type} [DecidableEq κ] (l : List (κ × ν)) : List (κ × ν) :=
  l.foldl (fun acc kv => dinsert acc kv.1 kv.2) []

/-- Dict lookup (`d.get(key)`), on a list already in dict form (unique
keys): the first matching entry. -/
def dget {κ ν : Type} [DecidableEq κ] (l : List (κ × ν)) (key : κ) : Option ν :=
  (l.find? (fun kv => kv.1 = key)).map (fun kv => kv.2)

/-- Lookup on a raw insertion sequence with Python-dict semantics: the
value of the last writer. -/
def dgetLast {κ ν : Type} [DecidableEq κ] (l : List (κ × ν)) (key : κ) : Option ν :=
  dget (dictOfList l) key

/-! ## String primitives

Python `str.strip()`, `str.lower()`, `str.split(",")`, `int(str)` and
`str.startswith` are re-implemented over the character list of the
string (the built-in Lean equivalents are byte-position based and do
not evaluate inside the kernel).  `int(...)` accepts surrounding
whitespace, an optional sign and decimal digits. -/

/-- `str.strip()` (ASCII whitespace). -/
def pyStrip (s : String) : String :=
  ⟨((s.data.dropWhile Char.isWhitespace).reverse.dropWhile Char.isWhitespace).reverse⟩

/-- `str.lower()`. -/
def pyLower (s : String) : String :=
  ⟨s.data.map Char.toLower⟩

/-- `str.split(",")` on characters. -/
def splitCommaAux : List Char → List Char → List String
  | [], acc => [⟨acc.reverse⟩]
  | c :: rest, acc =>
      if c = ',' then ⟨acc.reverse⟩ :: splitCommaAux rest []
      else splitCommaAux rest (c :: acc)

/-- `str.split(",")`. -/
def splitComma (s : String) : List String :=
  splitCommaAux s.data []

/-- Decimal digits accumulator. -/
def parseNatAux : List Char → Nat → Option Nat
  | [], acc => some acc
  | c :: rest, acc =>
      if c.isDigit then parseNatAux rest (acc * 10 + (c.toNat - '0'.toNat))
      else none

/-- Python `int(s)` on a string: `none` models the `ValueError`. -/
def pyToInt (s : String) : Option Int :=
  match (pyStrip s).data with
  | [] => none
  | '-' :: rest =>
      match rest with
      | [] => none
      | _ => (parseNatAux rest 0).map (fun n => -(Int.ofNat n))
  | '+' :: rest =>
      match rest with
      | [] => none
      | _ => (parseNatAux rest 0).map Int.ofNat
  | l => (parseNatAux l 0).map Int.ofNat

/-! ## Domain model: `modele/position.py`, `modele/eleve.py`,
`modele/table.py`, `modele/salle.py` -/

/-- `Position` (a precise seat): column `x`, row `y` (0 = front), seat
index `siege` within the table.  Immutable, used as a map key. -/
structure Position where
  x : Int
  y : Int
  siege : Int
deriving DecidableEq, Repr

/-- `Eleve`: a student, identified by a stable name; the gender string
is kept verbatim (`genre`).  Equality and hashing in the source compare
the full name. -/
structure Eleve where
  nom : String
  genre : String
deriving DecidableEq, Repr

/-- `Table`: a table at `(x, y)` with a positive seat capacity. -/
structure Table where
  x : Int
  y : Int
  capacite : Int
deriving DecidableEq, Repr

/-- Seats of one table: `Position(x, y, s)` for `s in range(capacite)`. -/
def Table.places (t : Table) : List Position :=
  (List.range t.capacite.toNat).map (fun s => ⟨t.x, t.y, Int.ofNat s⟩)

/-- One row of the schema (`Salle.__init__` inner loop): a positive
capacity at column `x` creates a table, a non-positive value is a
visual gap that still consumes the `x` slot. -/
def rowTables (x y : Int) : List Int → List Table
  | [] => []
  | cap :: rest => (if 0 < cap then [⟨x, y, cap⟩] else []) ++ rowTables (x + 1) y rest

/-- All rows of the schema (`Salle.__init__` outer loop). -/
def schemaTables (y : Int) : List (List Int) → List Table
  | [] => []
  | ligne :: rest => rowTables 0 y ligne ++ schemaTables (y + 1) rest

/-- `Salle`: a room built from a schema (list of rows of capacities). -/
structure Salle where
  schema : List (List Int)
deriving DecidableEq, Repr

/-- `Salle.tables()`. -/
def Salle.tables (s : Salle) : List Table :=
  schemaTables 0 s.schema

/-- `Salle.toutes_les_places()`: every seat of the room, row by row,
table by table, seat `0..cap-1`. -/
def Salle.toutesLesPlaces (s : Salle) : List Position :=
  s.tables.flatMap Table.places

/-- `Salle.max_y()`: largest existing row index, `-1` when the room has
no table. -/
def Salle.maxY (s : Salle) : Int :=
  ((s.tables.map Table.y).max?).getD (-1)

/-- `Salle.positions_par_table()`: seats grouped by table key. -/
def Salle.positionsParTable (s : Salle) : List ((Int × Int) × List Position) :=
  s.tables.map (fun t => ((t.x, t.y), t.places))

/-- `Salle.capacite_par_table()`. -/
def Salle.capaciteParTable (s : Salle) : List ((Int × Int) × Int) :=
  s.tables.map (fun t => ((t.x, t.y), t.capacite))

/-- Total number of seats, as computed by `_sanity_check`
(`sum(len(ps) for ps in salle.positions_par_table().values())`). -/
def totalSeats (s : Salle) : Nat :=
  (s.positionsParTable.map (fun kv => kv.2.length)).sum

/-- `meme_table` from `contraintes/base.py`: same `(x, y)`. -/
def memeTableB (a b : Position) : Bool :=
  a.x = b.x && a.y = b.y

/-- `distance_manhattan` from `contraintes/base.py`. -/
def distanceManhattan (a b : Position) : Int :=
  (a.x - b.x).natAbs + (a.y - b.y).natAbs

/-- `_genre_code` from `solveurs/cpsat.py`: prefix match on the
stripped, lowered gender string; `f*` is feminine, `m*` and `g*`
masculine, anything else `none`. -/
def genreCode (g : String) : Option String :=
  if g = "" then none
  else
    match (pyLower (pyStrip g)).data with
    | [] => none
    | c :: _ =>
        if c = 'f' then some "f"
        else if c = 'm' || c = 'g' then some "m"
        else none

/-! ## Constraint taxonomy: `contraintes/unaires.py`,
`contraintes/binaires.py`, `contraintes/structurelles.py`

One constructor per concrete class.  `DoitEtreDansDernieresRangees`
captures `salle.max_y()` at construction time (field `maxY`); the
`metric` attribute that the factories optionally `setattr` on
front/back-rows and far-apart constraints is a constructor field
(`"grid"` when absent, which is how every consumer reads it back via
`getattr(c, "metric", "grid")`). -/

inductive Contrainte where
  | premieresRangees (eleve : Eleve) (k : Int) (metric : String)
  | dernieresRangees (eleve : Eleve) (k : Int) (maxY : Int) (metric : String)
  | seulATable (eleve : Eleve)
  | voisinVide (eleve : Eleve)
  | exactementIci (eleve : Eleve) (ou : Position)
  | noAdjacent (eleve : Eleve)
  | eloignes (a b : Eleve) (d : Int) (metric : String) (enPixels : Bool)
  | memeTable (a b : Eleve)
  | adjacents (a b : Eleve)
  | tableVide (x y : Int)
  | siegeVide (x y seat : Int)
deriving DecidableEq, Repr

/-- `implique()`: the students involved (0, 1 or 2). -/
def Contrainte.implique : Contrainte → List Eleve
  | .premieresRangees e _ _ => [e]
  | .dernieresRangees e _ _ _ => [e]
  | .seulATable e => [e]
  | .voisinVide e => [e]
  | .exactementIci e _ => [e]
  | .noAdjacent e => [e]
  | .eloignes a b _ _ _ => [a, b]
  | .memeTable a b => [a, b]
  | .adjacents a b => [a, b]
  | .tableVide _ _ => []
  | .siegeVide _ _ _ => []

/-- `places_autorisees(eleve, salle)`: the per-constraint unary filter;
`none` means the constraint has no opinion for that student.  Mirrors
each class of the source (front rows: `p.y < k`; back rows:
`p.y >= max(0, max_y - k + 1)` with the captured `max_y`; exact seat:
the single pinned position; forbid-table / forbid-seat: everything but
the banned table / seat, for every student). -/
def Contrainte.placesAutorisees (c : Contrainte) (e : Eleve) (salle : Salle) :
    Option (List Position) :=
  match c with
  | .premieresRangees em k _ =>
      if e = em then some (salle.toutesLesPlaces.filter (fun p => p.y < k)) else none
  | .dernieresRangees em k my _ =>
      if e = em then
        some (salle.toutesLesPlaces.filter (fun p => max 0 (my - k + 1) ≤ p.y))
      else none
  | .exactementIci em ou => if e = em then some [ou] else none
  | .tableVide x y =>
      some (salle.toutesLesPlaces.filter (fun p => !(p.x = x && p.y = y)))
  | .siegeVide x y s =>
      some (salle.toutesLesPlaces.filter (fun p => !(p.x = x && p.y = y && p.siege = s)))
  | _ => none

/-- Assignments student → seat, as the insertion sequence of the Python
dict built by the solver reconstruction. -/
abbrev Affectation := List (Eleve × Position)

/-- `affectation.get(e)` (dict lookup, last writer wins). -/
def aget (aff : Affectation) (e : Eleve) : Option Position :=
  dgetLast aff e

/-- Items of the assignment dict, in first-insertion order. -/
def aitems (aff : Affectation) : List (Eleve × Position) :=
  dictOfList aff

/-- `est_satisfaite(affectation)` of each constraint class, on a
partial or complete assignment.  `DoitAvoirVoisinVide.est_satisfaite`
returns `True` unconditionally in the source (the real check lives in
the final validators); `DoiventEtreEloignes.est_satisfaite` always uses
the grid Manhattan distance. -/
def Contrainte.estSatisfaite (c : Contrainte) (aff : Affectation) : Bool :=
  match c with
  | .premieresRangees em k _ =>
      match aget aff em with
      | none => true
      | some pos => pos.y < k
  | .dernieresRangees em k my _ =>
      match aget aff em with
      | none => true
      | some pos => max 0 (my - k + 1) ≤ pos.y
  | .seulATable em =>
      match aget aff em with
      | none => true
      | some pos =>
          !((aitems aff).any (fun ap => ap.1 ≠ em && memeTableB pos ap.2))
  | .voisinVide _ => true
  | .exactementIci em ou =>
      match aget aff em with
      | none => true
      | some pos => pos = ou
  | .noAdjacent em =>
      match aget aff em with
      | none => true
      | some pos =>
          !((aitems aff).any (fun ap =>
            ap.1 ≠ em && ap.2.x = pos.x && ap.2.y = pos.y &&
              (ap.2.siege - pos.siege).natAbs = 1))
  | .eloignes a b d _ _ =>
      match aget aff a, aget aff b with
      | some pa, some pb => d ≤ distanceManhattan pa pb
      | _, _ => true
  | .memeTable a b =>
      match aget aff a, aget aff b with
      | some pa, some pb => memeTableB pa pb
      | _, _ => true
  | .adjacents a b =>
      match aget aff a, aget aff b with
      | some pa, some pb => memeTableB pa pb && (pa.siege - pb.siege).natAbs = 1
      | _, _ => true
  | .tableVide x y =>
      !((aitems aff).any (fun ap => ap.2.x = x && ap.2.y = y))
  | .siegeVide x y s =>
      !((aitems aff).any (fun ap => ap.2.x = x && ap.2.y = y && ap.2.siege = s))

/-! ## Wire values and serialization

Wire descriptors are Python dicts with heterogeneous values; `WVal`
covers the shapes the translator and serializer actually meet: ints,
strings, booleans, and the BOUND METHOD objects that `e.nom` evaluates
to (`Eleve.nom` is a method, `modele/eleve.py` line 44, not a
property — `wMeth e` stands for the bound method of instance `e`). -/

inductive WVal where
  | wInt (n : Int)
  | wStr (s : String)
  | wBool (b : Bool)
  | wMeth (e : Eleve)
deriving DecidableEq, Repr

/-- A wire descriptor / `code_machine` record: a Python dict keyed by
strings. -/
abbrev Desc := List (String × WVal)

/-- Python `str(v)` on a wire value (`str` of a bound method is its
repr, never a name or a tag). -/
def pyStr : WVal → String
  | .wInt n => toString n
  | .wStr s => s
  | .wBool b => if b then "True" else "False"
  | .wMeth _ => "<bound method Eleve.nom>"

/-- Python `int(v)` on a wire value: identity on ints, decimal parse on
strings (raising `ValueError` otherwise), 0/1 on booleans.
(Approximation: Python additionally accepts surrounding whitespace and
a leading `+`; we parse the trimmed string with `String.toInt?`.) -/
def pyInt : WVal → Except SolveErr Int
  | .wInt n => .ok n
  | .wStr s =>
      match pyToInt s with
      | some n => .ok n
      | none => .error (.valueError "invalid literal for int")
  | .wBool b => .ok (if b then 1 else 0)
  | .wMeth _ => .error (.typeError "int() argument must not be a method")

/-- Python truthiness `bool(v)`. -/
def pyTruthy : WVal → Bool
  | .wInt n => n ≠ 0
  | .wStr s => s ≠ ""
  | .wBool b => b
  | .wMeth _ => true

/-- `_key_forbid` from `fabrique_ui.py` (and the inline parse of
`utils_locks.py`): split `"x,y,s"` on commas into three ints, raising
`ValueError` on any other shape. -/
def keyForbid (k : String) : Except SolveErr (Int × Int × Int) :=
  match splitComma k with
  | [a, b, c] =>
      match pyToInt a, pyToInt b, pyToInt c with
      | some x, some y, some s => .ok (x, y, s)
      | _, _, _ => .error (.valueError "cle de siege invalide")
  | _ => .error (.valueError "cle de siege invalide")

/-- `code_machine()` of each constraint class, as written.  Student
references are serialised as `self.eleve.nom` — `Eleve.nom` is a
METHOD, so the emitted value is a bound method object (`wMeth`), not a
name string (unaires.py line 39, binaires.py line 37).  The
`ForbidSeat` and `NoAdjacent` classes serialise their tag through
`self.type_contrainte().value`, which accesses the missing enum
members `SIEGE_INTERDIT` / `NO_ADJACENT` and raises `AttributeError`
(structurelles.py line 55, unaires.py line 200).  Only `ForbidTable`
serialises to a data-only record.  The `metric` attribute of
front/back-rows and the `metric` / `en_pixels` attributes of far-apart
are not serialised. -/
def Contrainte.codeMachine : Contrainte → Except SolveErr Desc
  | .premieresRangees e k _ =>
      .ok [("type", .wStr "front_rows"), ("eleve", .wMeth e), ("k", .wInt k)]
  | .dernieresRangees e k _ _ =>
      .ok [("type", .wStr "back_rows"), ("eleve", .wMeth e), ("k", .wInt k)]
  | .seulATable e =>
      .ok [("type", .wStr "solo_table"), ("eleve", .wMeth e)]
  | .voisinVide e =>
      .ok [("type", .wStr "empty_neighbor"), ("eleve", .wMeth e)]
  | .exactementIci e p =>
      .ok [("type", .wStr "exact_seat"), ("eleve", .wMeth e),
       ("x", .wInt p.x), ("y", .wInt p.y), ("seat", .wInt p.siege)]
  | .noAdjacent _ =>
      .error (.attributeError
        "type object TypeContrainte has no attribute NO_ADJACENT")
  | .eloignes a b d _ _ =>
      .ok [("type", .wStr "far_apart"), ("a", .wMeth a), ("b", .wMeth b),
       ("d", .wInt d)]
  | .memeTable a b =>
      .ok [("type", .wStr "same_table"), ("a", .wMeth a), ("b", .wMeth b)]
  | .adjacents a b =>
      .ok [("type", .wStr "adjacent"), ("a", .wMeth a), ("b", .wMeth b)]
  | .tableVide x y =>
      .ok [("type", .wStr "forbid_table"), ("x", .wInt x), ("y", .wInt y)]
  | .siegeVide _ _ _ =>
      .error (.attributeError
        "type object TypeContrainte has no attribute SIEGE_INTERDIT")

/-- The five constraint kinds whose satisfaction predicate the final
validator of `SolveurCPSAT` faithfully re-checks (`EmptyNeighbor` is
re-checked too, but by the validator's own occupied-seat rule, not by
`est_satisfaite`, which is constant `True` for it). -/
def kindVerifie : Contrainte → Bool
  | .seulATable _ => true
  | .noAdjacent _ => true
  | .eloignes _ _ _ _ _ => true
  | .memeTable _ _ => true
  | .adjacents _ _ => true
  | _ => false

/-! ## The `TypeContrainte` enum exactly as written in
`contraintes/types.py`

`types.py` defines NINE members.  The rest of the code base
(`contraintes/enregistrement.py`, `contraintes/unaires.py`,
`contraintes/structurelles.py`, `fabrique_ui.py`) additionally accesses
the members `NO_ADJACENT` (expected value `"no_adjacent"`) and
`SIEGE_INTERDIT` (expected value `"forbid_seat"`), and the test
`tests/test_fabrique_ui.py` asserts that translated constraints include
the tag `"forbid_seat"`.  With `types.py` as written those attribute
accesses raise `AttributeError` (at import time for the registry
decorators).  The lists below record the source verbatim so this
mismatch can be stated. -/

/-- The members of `class TypeContrainte(str, Enum)` in
`contraintes/types.py`, as (member name, value) pairs, in source
order. -/
def typesPyMembers : List (String × String) :=
  [("PREMIERES_RANGEES", "front_rows"),
   ("DERNIERES_RANGEES", "back_rows"),
   ("SEUL_A_TABLE", "solo_table"),
   ("VOISIN_VIDE", "empty_neighbor"),
   ("EXACT_SEAT", "exact_seat"),
   ("ELOIGNES", "far_apart"),
   ("MEME_TABLE", "same_table"),
   ("ADJACENTS", "adjacent"),
   ("TABLE_INTERDITE", "forbid_table")]

/-- Attribute access `TypeContrainte.<name>`: `none` models the
`AttributeError` on a missing member. -/
def typeContrainteAttr (name : String) : Option String :=
  dget typesPyMembers name

/-- Value lookup `TypeContrainte(value)`: `none` models the
`ValueError` on an unknown value. -/
def typeContrainteOfValue (value : String) : Option String :=
  ((typesPyMembers.find? (fun kv => kv.2 = value)).map (fun kv => kv.1))

/-- The `TypeContrainte` member names referenced by the
`@enregistrer(TypeContrainte.X)` decorators of
`contraintes/enregistrement.py`, in source order.  Each decorator runs
at import time, so each listed member must exist for the module to
import. -/
def registryReferencedMembers : List String :=
  ["PREMIERES_RANGEES", "DERNIERES_RANGEES", "ELOIGNES", "SEUL_A_TABLE",
   "VOISIN_VIDE", "EXACT_SEAT", "MEME_TABLE", "ADJACENTS",
   "TABLE_INTERDITE", "SIEGE_INTERDIT", "NO_ADJACENT"]

/-- The `TypeContrainte` member names read by `fabrique_contraintes_ui`
(`fabrique_ui.py` lines 60-134 and the forbidden-keys stage at line
147). -/
def fabriqueUIReferencedMembers : List String :=
  ["PREMIERES_RANGEES", "DERNIERES_RANGEES", "SEUL_A_TABLE",
   "VOISIN_VIDE", "NO_ADJACENT", "EXACT_SEAT", "ELOIGNES", "MEME_TABLE",
   "ADJACENTS", "TABLE_INTERDITE", "SIEGE_INTERDIT"]

/-- The constraint-type tags the wire format uses (spec section 6), and
the values the eleven factories of `enregistrement.py` are meant to be
registered under (the spec's intended eleven-value enum; `types.py` as
written defines only nine of them). -/
def intendedTagValues : List String :=
  ["front_rows", "back_rows", "solo_table", "empty_neighbor",
   "exact_seat", "far_apart", "same_table", "adjacent", "forbid_table",
   "forbid_seat", "no_adjacent"]

/-! ## Constraint registry: `contraintes/registre.py` and the factories
of `contraintes/enregistrement.py`

The registry and translator below embed the code AS STAGED at call
time: `TypeContrainte(value)` validates against the nine members of
`types.py` (so `forbid_seat` / `no_adjacent` raise `ValueError`), the
attribute accesses `TypeContrainte.NO_ADJACENT` /
`TypeContrainte.SIEGE_INTERDIT` in `fabrique_ui.py` raise
`AttributeError` where they are evaluated, and the name index
`{e.nom: e}` is keyed by BOUND METHODS (`Eleve.nom` is a method), so
every factory's string-name lookup raises `KeyError`. -/

/-- A key of the `index_eleves_par_nom` dict: `e.nom` evaluates to the
bound method of instance `e` (never equal to any string), while the
factories look names up with plain strings. -/
inductive NomCle where
  | methode (e : Eleve)
  | chaine (s : String)
deriving DecidableEq, Repr

/-- `ContexteFabrique`: the room plus the `{e.nom: e}` index — keyed by
the bound methods `e.nom`. -/
structure ContexteFabrique where
  salle : Salle
  indexElevesParNom : List (NomCle × Eleve)
deriving Repr

/-- `{e.nom: e for e in eleves}` (dict comprehension, fabrique_ui.py
line 46): each key is the bound method `e.nom`, not the name string. -/
def indexElevesParNom (eleves : List Eleve) : List (NomCle × Eleve) :=
  dictOfList (eleves.map (fun e => (NomCle.methode e, e)))

/-- Normalised metric field: `str(code.get("metric", "grid")).strip().lower()`,
kept only when it is `grid` or `px` (the factory otherwise does not set
the attribute, and every consumer then defaults to `"grid"`). -/
def metricOfCode (code : Desc) : String :=
  let raw := pyLower (pyStrip (pyStr ((dget code "metric").getD (.wStr "grid"))))
  if raw = "grid" || raw = "px" then raw else "grid"

/-- Read a required string field (`code["eleve"]` etc.): a missing key
raises `KeyError`. -/
def reqStr (code : Desc) (key : String) : Except SolveErr String :=
  match dget code key with
  | some v => .ok (pyStr v)
  | none => .error (.keyError key)

/-- Read a required int field: missing key raises `KeyError`, a
non-int value `ValueError`. -/
def reqInt (code : Desc) (key : String) : Except SolveErr Int :=
  match dget code key with
  | some v => pyInt v
  | none => .error (.keyError key)

/-- `ctx.index_eleves_par_nom[nom]` with `nom` a string: the dict keys
are bound methods, so the lookup raises `KeyError` whenever no key
equals the string — in particular always, on the index the translator
builds. -/
def reqEleve (ctx : ContexteFabrique) (nom : String) : Except SolveErr Eleve :=
  match dget ctx.indexElevesParNom (NomCle.chaine nom) with
  | some e => .ok e
  | none => .error (.keyError nom)

/-- `contrainte_depuis_code` (`registre.py`) composed with the nine
factories of `enregistrement.py` that the nine-member enum can
register: `TypeContrainte(type_valeur)` raises `ValueError` for any
value that is not one of the nine member values of `types.py` — in
particular for `forbid_seat` and `no_adjacent`.  In every factory that
references a student, the name lookup runs before the constructor, so
the `KeyError` of the method-keyed index fires before the `assert`
statements (`k >= 1`, `d >= 1`) could. -/
def contrainteDepuisCode (code : Desc) (ctx : ContexteFabrique) :
    Except SolveErr Contrainte := do
  let typeValeur := pyStr ((dget code "type").getD (.wStr ""))
  if !((typesPyMembers.map (fun kv => kv.2)).contains typeValeur) then
    .error (.valueError "Type de contrainte inconnu")
  else if typeValeur = "front_rows" then do
    let nom ← reqStr code "eleve"
    let k ← reqInt code "k"
    let e ← reqEleve ctx nom
    if k < 1 then .error (.assertionError "k doit etre >= 1")
    else .ok (.premieresRangees e k (metricOfCode code))
  else if typeValeur = "back_rows" then do
    let nom ← reqStr code "eleve"
    let k ← reqInt code "k"
    let e ← reqEleve ctx nom
    if k < 1 then .error (.assertionError "k doit etre >= 1")
    else .ok (.dernieresRangees e k ctx.salle.maxY (metricOfCode code))
  else if typeValeur = "far_apart" then do
    let aNom ← reqStr code "a"
    let bNom ← reqStr code "b"
    let d ← reqInt code "d"
    let a ← reqEleve ctx aNom
    let b ← reqEleve ctx bNom
    if d < 1 then .error (.assertionError "d doit etre >= 1")
    else
      let metricRaw := pyLower (pyStrip (pyStr ((dget code "metric").getD (.wStr "grid"))))
      let enPixels := pyTruthy ((dget code "en_pixels").getD (.wBool false))
      if enPixels || metricRaw = "px" then .ok (.eloignes a b d "px" true)
      else .ok (.eloignes a b d "grid" false)
  else if typeValeur = "solo_table" then do
    let nom ← reqStr code "eleve"
    let e ← reqEleve ctx nom
    .ok (.seulATable e)
  else if typeValeur = "empty_neighbor" then do
    let nom ← reqStr code "eleve"
    let e ← reqEleve ctx nom
    .ok (.voisinVide e)
  else if typeValeur = "exact_seat" then do
    let nom ← reqStr code "eleve"
    let x ← reqInt code "x"
    let y ← reqInt code "y"
    let seat ← reqInt code "seat"
    let e ← reqEleve ctx nom
    .ok (.exactementIci e ⟨x, y, seat⟩)
  else if typeValeur = "same_table" then do
    let aNom ← reqStr code "a"
    let bNom ← reqStr code "b"
    let a ← reqEleve ctx aNom
    let b ← reqEleve ctx bNom
    .ok (.memeTable a b)
  else if typeValeur = "adjacent" then do
    let aNom ← reqStr code "a"
    let bNom ← reqStr code "b"
    let a ← reqEleve ctx aNom
    let b ← reqEleve ctx bNom
    .ok (.adjacents a b)
  else do
    let x ← reqInt code "x"
    let y ← reqInt code "y"
    .ok (.tableVide x y)

/-! ## UI translator: `fabrique_ui.py`

`_id2nom_map` resolves each payload row to `(int(s["id"]), name)` where
the name is `s["name"]` or the `"LAST first"` fallback; payload rows are
abstracted here to the resolved `(id, name)` pair (the fallback
concatenation is not load-bearing for any claim). -/

/-- The id → stable-name map built from the roster payload
(`_id2nom_map`), with dict overwrite semantics. -/
def id2nomMap (payload : List (Int × String)) : List (Int × String) :=
  dictOfList payload

/-- The tag values the unary branch of `fabrique_contraintes_ui` is
meant to accept (lines 60-67).  In the source this very set display
evaluates `TypeContrainte.NO_ADJACENT.value` (line 65) and therefore
raises `AttributeError` whenever it is reached. -/
def unaryTags : List String :=
  ["front_rows", "back_rows", "solo_table", "empty_neighbor",
   "no_adjacent", "exact_seat"]

/-- The per-descriptor body of the main loop of
`fabrique_contraintes_ui` (lines 52-136), as written: the skip of the
batch/objective markers and empty types (lines 53-55) runs first; EVERY
other descriptor then reaches the `if typ in {...
TypeContrainte.NO_ADJACENT.value ...}` test of lines 60-67, whose set
display raises `AttributeError` — before the student id, the tag
branch, or any factory is consulted.  `ok none` models a `continue`,
`error` an uncaught exception; no descriptor can produce a
constraint. -/
def processDesc (ctx : ContexteFabrique) (id2nom : List (Int × String))
    (c : Desc) : Except SolveErr (Option Contrainte) :=
  let _ := ctx
  let _ := id2nom
  let typ := pyStrip (pyStr ((dget c "type").getD (.wStr "")))
  if typ = "_batch_marker_" || typ = "_objective_" || typ = "" then .ok none
  else .error (.attributeError
    "type object TypeContrainte has no attribute NO_ADJACENT")


/-- The main loop over `constraints_ui`, in order. -/
def processAll (ctx : ContexteFabrique) (id2nom : List (Int × String)) :
    List Desc → Except SolveErr (List Contrainte)
  | [] => .ok []
  | c :: rest => do
      let r ← processDesc ctx id2nom c
      let out ← processAll ctx id2nom rest
      match r with
      | none => .ok out
      | some k => .ok (k :: out)

/-- Keys of the `SiegeDoitEtreVide` constraints already in `out` (the
`deja` set of `fabrique_ui.py`, computed once before the loop). -/
def dejaSieges (out : List Contrainte) : List (Int × Int × Int) :=
  out.filterMap (fun c => match c with
    | .siegeVide x y s => some (x, y, s)
    | _ => none)

/-- The forbidden-keys stage (lines 143-148): each key is parsed, then
checked against `deja`; for a key not yet represented, line 147
evaluates `TypeContrainte.SIEGE_INTERDIT.value` to build the code dict
and raises `AttributeError` (the member does not exist). -/
def forbidGo (ctx : ContexteFabrique) (deja : List (Int × Int × Int)) :
    List String → Except SolveErr (List Contrainte)
  | [] => .ok []
  | k :: rest => do
      let _ := ctx
      let (x, y, s) ← keyForbid k
      if deja.contains (x, y, s) then forbidGo ctx deja rest
      else .error (.attributeError
        "type object TypeContrainte has no attribute SIEGE_INTERDIT")

/-- The `deja_exact` set (lines 152-156): `getattr(c, "eleve").nom` is
the BOUND METHOD of the pinned student, so the set holds method
objects, never name strings. -/
def dejaExacts (out : List Contrainte) : List NomCle :=
  out.filterMap (fun c => match c with
    | .exactementIci e _ => some (NomCle.methode e)
    | _ => none)

/-- The locked-placements stage (lines 150-164): one `exact_seat` per
placement whose student id resolves; the membership test `nom in
deja_exact` compares a string against bound methods (always false),
and the emitted `exact_seat` code reaches `_fab_exact_seat`, whose
name lookup on the method-keyed index raises `KeyError`. -/
def placeGo (ctx : ContexteFabrique) (id2nom : List (Int × String))
    (deja : List NomCle) :
    List (String × Int) → Except SolveErr (List Contrainte)
  | [] => .ok []
  | (k, sid) :: rest => do
      let (x, y, s) ← keyForbid k
      match dget id2nom sid with
      | none => placeGo ctx id2nom deja rest
      | some nom =>
        if nom = "" || deja.contains (NomCle.chaine nom) then
          placeGo ctx id2nom deja rest
        else do
          let c ← contrainteDepuisCode
            [("type", WVal.wStr "exact_seat"), ("eleve", WVal.wStr nom),
             ("x", WVal.wInt x), ("y", WVal.wInt y), ("seat", WVal.wInt s)] ctx
          let tail ← placeGo ctx id2nom deja rest
          .ok (c :: tail)

/-- `fabrique_contraintes_ui` (lines 30-166): the three stages in
order — the descriptor loop, the forbidden-keys stage, the optional
placements stage.  With the stage bodies as staged above, a run either
raises (`AttributeError` / `KeyError` / `ValueError`) or returns with
every stage having contributed nothing. -/
def fabriqueContraintesUI (salle : Salle) (eleves : List Eleve)
    (payload : List (Int × String)) (constraintsUI : List Desc)
    (forbiddenKeys : List String) (placements : List (String × Int))
    (respecterPlacements : Bool) : Except SolveErr (List Contrainte) := do
  let ctx : ContexteFabrique := ⟨salle, indexElevesParNom eleves⟩
  let id2nom := id2nomMap payload
  let out1 ← processAll ctx id2nom constraintsUI
  let news2 ← forbidGo ctx (dejaSieges out1) forbiddenKeys
  let out2 := out1 ++ news2
  if respecterPlacements then do
    let news3 ← placeGo ctx id2nom (dejaExacts out2) placements
    .ok (out2 ++ news3)
  else .ok out2

/-! ## CP-SAT solver embedding: `solveurs/cpsat.py`

The model variables are `x[e][i]` booleans.  Auxiliary model variables
(`occ`, the pair booleans, `iso`, `nb_isoles`, `nb_same`, `sumY`, the
`a_on_T` indicators) are each pinned by equality / three-inequality
encodings to a function of `x`, so the embedding computes them directly
from `x`.  A feasible `x` has exactly one seat per student, so feasible
matrices are enumerated as one seat choice per student
(`asn : List Nat`, `asn[e]` the seat of student `e`), and
`hardSat` re-checks every hard constraint of `_build_model` on that
choice. -/

/-- `_Seat`: enumerated seat with its grid coordinates, table key and
pixel coordinates. -/
structure Seat where
  idx : Nat
  x : Int
  y : Int
  s : Int
  tableKey : Int × Int
  px : Int
  py : Int
deriving DecidableEq, Repr

/-- `GeomPixels`. -/
structure GeomPixels where
  tablePitchX : Int
  tablePitchY : Int
  seatPitchX : Int
  seatOffsetX : Int := 0
  seatOffsetY : Int := 0
deriving DecidableEq, Repr

/-- Solver configuration: the constructor arguments of `SolveurCPSAT`.
`randomize_order` is fixed to its default `False` (the `rng.shuffle`
call is the only consumer of it); `seedDraw` stands for
`random.Random(seed).randrange(1, 1_000_000)`, the single value every
pass-4 weight evaluates to — the source seeds a FRESH generator per
`(e, i)` from the same seed, so all weights are equal to this first
draw, a function of the seed alone. -/
structure SolverCfg where
  preferAlone : Bool := true
  preferMixage : Bool := true
  tiebreakRandom : Bool := true
  seedDraw : Int := 1
  geom : Option GeomPixels := none
  tableOffsets : List ((Int × Int) × (Int × Int)) := []
  rowOrderUI : Option (List Int) := none
  rowMapUI : Option (List ((Int × Int) × Int)) := none
deriving Repr

/-- One enumerated seat (`_enumerate_seats` loop body). -/
def mkSeat (geom : Option GeomPixels) (offs : List ((Int × Int) × (Int × Int)))
    (i : Nat) (p : Position) : Seat :=
  match geom with
  | none => ⟨i, p.x, p.y, p.siege, (p.x, p.y), p.x, p.y⟩
  | some g =>
      let d := (dget offs (p.x, p.y)).getD (0, 0)
      ⟨i, p.x, p.y, p.siege, (p.x, p.y),
        p.x * g.tablePitchX + d.1 + g.seatOffsetX + p.siege * g.seatPitchX,
        p.y * g.tablePitchY + d.2 + g.seatOffsetY⟩

/-- Seat enumeration with a running index. -/
def enumSeatsAux (geom : Option GeomPixels)
    (offs : List ((Int × Int) × (Int × Int))) : Nat → List Position → List Seat
  | _, [] => []
  | i, p :: rest => mkSeat geom offs i p :: enumSeatsAux geom offs (i + 1) rest

/-- `_enumerate_seats`. -/
def enumerateSeats (salle : Salle) (geom : Option GeomPixels)
    (offs : List ((Int × Int) × (Int × Int))) : List Seat :=
  enumSeatsAux geom offs 0 salle.toutesLesPlaces

/-- `_adjacent_edges_same_table`: per table, one undirected edge
between consecutive seats (seats sorted by seat index; the global
index respects that order, so consecutive seats already are adjacent
in `seats`).  Edges are produced as `(i, j)` with `i < j`. -/
def tableKeysOf (seats : List Seat) : List (Int × Int) :=
  (seats.map Seat.tableKey).dedup

/-- Seat indices of one table, in enumeration order (also the order of
`seats_by_table` values, and — since `toutes_les_places` emits seats in
increasing seat index — the order sorted by seat index). -/
def tableSeatIds (seats : List Seat) (tk : Int × Int) : List Nat :=
  (seats.filter (fun st => st.tableKey = tk)).map Seat.idx

/-- `seats_by_table` (defaultdict in first-touch order). -/
def seatsByTable (seats : List Seat) : List ((Int × Int) × List Nat) :=
  (tableKeysOf seats).map (fun tk => (tk, tableSeatIds seats tk))

/-- Consecutive pairs of a list. -/
def consecPairs : List Nat → List (Nat × Nat)
  | [] => []
  | [_] => []
  | a :: b :: rest => (min a b, max a b) :: consecPairs (b :: rest)

/-- `_adjacent_edges_same_table`. -/
def adjacentEdgesSameTable (seats : List Seat) : List (Nat × Nat) :=
  (seatsByTable seats).flatMap (fun kv => consecPairs kv.2)

/-- `neighbors_of[i]` (both directions of each edge, in edge order). -/
def neighborsOf (edges : List (Nat × Nat)) (i : Nat) : List Nat :=
  edges.filterMap (fun e =>
    if e.1 = i then some e.2 else if e.2 = i then some e.1 else none)

/-- The keys of the `neighbors_of` defaultdict, in first-touch
order. -/
def neighborKeys (edges : List (Nat × Nat)) : List Nat :=
  (edges.flatMap (fun e => [e.1, e.2])).dedup

/-! ### Domain pre-computation: `_compute_allowed_domains` -/

/-- `range(a, b)` over `Int`. -/
def rangeInt (a b : Int) : List Int :=
  (List.range (b - a).toNat).map (fun i => a + Int.ofNat i)

/-- Last `k` elements, `l[-k:]` for `k >= 1`. -/
def takeLast (l : List Int) (k : Int) : List Int :=
  l.drop (l.length - k.toNat)

/-- Insertion into an ascending list. -/
def insertAsc (a : Int) : List Int → List Int
  | [] => [a]
  | b :: t => if a ≤ b then a :: b :: t else b :: insertAsc a t

/-- Ascending sort (Python `sorted` on ints). -/
def insSort (l : List Int) : List Int :=
  l.foldr insertAsc []

/-- Stable insertion by key (used by the pixel-geometry row
ordering). -/
def insertByKey (key : Int → Int) (a : Int) : List Int → List Int
  | [] => [a]
  | b :: t => if key a ≤ key b then a :: b :: t else b :: insertByKey key a t

/-- Stable sort by key (Python `sorted(..., key=...)`). -/
def sortByKey (key : Int → Int) (l : List Int) : List Int :=
  l.foldr (insertByKey key) []

/-- `row_py` of variant (C): per grid row, the `py` of the first seat
of each table (`st.s == 0`, one per table). -/
def rowPyOf (seats : List Seat) : List (Int × List Int) :=
  let firsts := seats.filter (fun st => st.s = 0)
  ((firsts.map Seat.y).dedup).map (fun yy =>
    (yy, (firsts.filter (fun st => st.y = yy)).map Seat.py))

/-- Minimum of a nonempty list with a default. -/
def minD (l : List Int) : Int := (l.min?).getD 0

/-- Maximum of a nonempty list with a default. -/
def maxD (l : List Int) : Int := (l.max?).getD 0

/-- `nb_vis_rows = 1 + max(map_ui.values())`, with the `except
ValueError` fallback to 0 on an empty dict. -/
def nbVisRows (vals : List Int) : Int :=
  match vals.max? with
  | some m => 1 + m
  | none => 0

/-- The seat-id set allowed by a front-rows / back-rows constraint,
with the four-variant priority of `_compute_allowed_domains`:
row map per table, visual row order, pixel geometry (for `metric=px`),
then the grid fallback `sorted({y})[:k]` / `[-k:]`. -/
def idsAllowedFrontBack (cfg : SolverCfg) (seats : List Seat)
    (allIds : List Nat) (isFront : Bool) (k : Int) (metric : String) :
    List Nat :=
  match cfg.rowMapUI with
  | some mapUI =>
      let vals : List Int := mapUI.map (fun kv => kv.2)
      let nbVis : Int := nbVisRows vals
      let r : Int := if nbVis = 0 then Int.ofNat vals.dedup.length else nbVis
      if r ≤ 0 then allIds
      else
        let allowedVis : List Int :=
          if isFront then rangeInt 0 (min k r) else rangeInt (max 0 (r - k)) r
        let allowedTables := (mapUI.filter (fun kv => allowedVis.contains kv.2)).map
          (fun kv => kv.1)
        (seats.filter (fun st => allowedTables.contains st.tableKey)).map Seat.idx
  | none =>
    match cfg.rowOrderUI with
    | some ordUI =>
        let allowedY := if isFront then ordUI.take k.toNat else takeLast ordUI k
        (seats.filter (fun st => allowedY.contains st.y)).map Seat.idx
    | none =>
      let rowsGrid := insSort ((seats.map Seat.y).dedup)
      match cfg.geom with
      | some _ =>
          if metric = "px" then
            let rowPy := rowPyOf seats
            let ordFront := sortByKey (fun yy => minD ((dget rowPy yy).getD [])) (rowPy.map (fun kv => kv.1))
            let ordBack := sortByKey (fun yy => maxD ((dget rowPy yy).getD [])) (rowPy.map (fun kv => kv.1))
            if !ordFront.isEmpty && !ordBack.isEmpty then
              let allowedY := if isFront then ordFront.take k.toNat else takeLast ordBack k
              (seats.filter (fun st => allowedY.contains st.y)).map Seat.idx
            else
              let allowedY := if isFront then rowsGrid.take k.toNat else takeLast rowsGrid k
              (seats.filter (fun st => allowedY.contains st.y)).map Seat.idx
          else
            let allowedY := if isFront then rowsGrid.take k.toNat else takeLast rowsGrid k
            (seats.filter (fun st => allowedY.contains st.y)).map Seat.idx
      | none =>
          let allowedY := if isFront then rowsGrid.take k.toNat else takeLast rowsGrid k
          (seats.filter (fun st => allowedY.contains st.y)).map Seat.idx

/-- `_seat_index_of`: linear scan, `KeyError` when the position is not
a seat of the room. -/
def seatIndexOf (p : Position) (seats : List Seat) : Except SolveErr Nat :=
  match seats.find? (fun st => st.x = p.x && st.y = p.y && st.s = p.siege) with
  | some st => .ok st.idx
  | none => .error (.keyError "Position inconnue dans l inventaire des sieges")

/-- Intersection `allowed_by_e[i] &= ids`, keeping the order of the
current domain. -/
def interL (l ids : List Nat) : List Nat :=
  l.filter (fun v => ids.contains v)

/-- `allowed_by_e[i] &= ids` on the domain table. -/
def domInter (doms : List (List Nat)) (i : Nat) (ids : List Nat) :
    List (List Nat) :=
  match doms.get? i with
  | some l => doms.set i (interL l ids)
  | none => doms

/-- Error-propagating left fold (the loop bodies below may raise). -/
def foldSteps {α β : Type} (f : α → β → Except SolveErr α) :
    α → List β → Except SolveErr α
  | a, [] => .ok a
  | a, c :: rest =>
      match f a c with
      | .error e => .error e
      | .ok a' => foldSteps f a' rest

/-- The generic `places_autorisees` path of `_compute_allowed_domains`
for one constraint and one (student index, student) pair. -/
def genericStep (salle : Salle) (seats : List Seat) (c : Contrainte)
    (doms : List (List Nat)) (pair : Nat × Eleve) :
    Except SolveErr (List (List Nat)) :=
  match c.placesAutorisees pair.2 salle with
  | none => .ok doms
  | some poss => do
      let ids ← poss.mapM (fun p => seatIndexOf p seats)
      .ok (domInter doms pair.1 ids)

/-- Student indices touched by a front/back-rows constraint: the
involved students, or everybody when none are involved. -/
def targetsOf (eleves : List Eleve) (c : Contrainte) : List Nat :=
  match c.implique with
  | [] => List.range eleves.length
  | es => es.map (fun e => eleves.indexOf e)

/-- One constraint of the `_compute_allowed_domains` loop. -/
def domainStep (cfg : SolverCfg) (salle : Salle) (eleves : List Eleve)
    (seats : List Seat) (allIds : List Nat) (doms : List (List Nat))
    (c : Contrainte) : Except SolveErr (List (List Nat)) :=
  match c with
  | .premieresRangees _ k m =>
      let ids := idsAllowedFrontBack cfg seats allIds true k m
      .ok ((targetsOf eleves c).foldl (fun d i => domInter d i ids) doms)
  | .dernieresRangees _ k _ m =>
      let ids := idsAllowedFrontBack cfg seats allIds false k m
      .ok ((targetsOf eleves c).foldl (fun d i => domInter d i ids) doms)
  | _ =>
      match c.implique with
      | [] =>
          foldSteps (genericStep salle seats c) doms
            ((List.range eleves.length).zip eleves)
      | es =>
          foldSteps (genericStep salle seats c) doms
            (es.map (fun e => (eleves.indexOf e, e)))

/-- `_compute_allowed_domains`: start from every seat for every
student, then intersect constraint by constraint. -/
def computeAllowedDomains (cfg : SolverCfg) (salle : Salle)
    (eleves : List Eleve) (cs : List Contrainte) (seats : List Seat) :
    Except SolveErr (List (List Nat)) :=
  let allIds := seats.map Seat.idx
  let init := eleves.map (fun _ => allIds)
  foldSteps (domainStep cfg salle eleves seats allIds) init cs

/-- `_apply_exact_seats`: a second pass intersecting each pinned
student with the singleton of the pinned seat. -/
def applyExactSeats (cs : List Contrainte) (eleves : List Eleve)
    (seats : List Seat) (doms : List (List Nat)) :
    Except SolveErr (List (List Nat)) :=
  foldSteps (fun d c =>
    match c with
    | .exactementIci em p => do
        let sid ← seatIndexOf p seats
        .ok (domInter d (eleves.indexOf em) [sid])
    | _ => .ok d) doms cs

/-! ### `_sanity_check` -/

/-- The duplicate-exact-seat scan. -/
def exactDupScan : List Contrainte → List (Int × Int × Int) →
    Except SolveErr Unit
  | [], _ => .ok ()
  | c :: rest, seen =>
      match c with
      | .exactementIci _ p =>
          let key := (p.x, p.y, p.siege)
          if seen.contains key then
            .error (.valueError "Deux eleves ne peuvent pas avoir le meme siege impose")
          else exactDupScan rest (key :: seen)
      | _ => exactDupScan rest seen

/-- `_sanity_check`: seat count, duplicate exact seats, exact seats on
forbidden tables (and, notably, NOT on forbidden seats). -/
def sanityCheck (salle : Salle) (eleves : List Eleve)
    (cs : List Contrainte) : Except SolveErr Unit :=
  if totalSeats salle < eleves.length then
    .error (.valueError "plus d eleves que de sieges disponibles")
  else
    match exactDupScan cs [] with
    | .error e => .error e
    | .ok () =>
        let forbT := cs.filterMap (fun c => match c with
          | .tableVide x y => some (x, y)
          | _ => none)
        if cs.any (fun c => match c with
          | .exactementIci _ p => forbT.contains (p.x, p.y)
          | _ => false) then
          .error (.valueError "Un siege exact est situe sur une table interdite")
        else .ok ()

/-! ### The hard constraints of `_build_model`, as a predicate on one
seat choice per student -/

/-- `x[e][i]` of the matrix induced by one seat choice per student. -/
def xOf (asn : List Nat) (e i : Nat) : Bool :=
  asn.get? e = some i

/-- `occ[i]` as an integer: the column sum of `x`. -/
def colCount (asn : List Nat) (nE i : Nat) : Nat :=
  ((List.range nE).filter (fun e => xOf asn e i)).length

/-- Row sum of `x` over the seats. -/
def rowCount (asn : List Nat) (nS e : Nat) : Nat :=
  ((List.range nS).filter (fun i => xOf asn e i)).length

/-- Pixel distance (or grid distance) between two enumerated seats, as
used by the far-apart encoding. -/
def seatDist (usePx : Bool) (a b : Seat) : Int :=
  if usePx then (a.px - b.px).natAbs + (a.py - b.py).natAbs
  else (a.x - b.x).natAbs + (a.y - b.y).natAbs

/-- The domain clauses: `x[e][i] = 0` outside `allowed_by_e[e]`, and
the unsatisfiable `sum == -1` row when the domain is empty. -/
def domainsOK (allowed : List (List Nat)) (nE nS : Nat) (asn : List Nat) : Bool :=
  (List.range nE).all (fun e =>
    let al := (allowed.get? e).getD []
    if al.isEmpty then decide ((Int.ofNat (rowCount asn nS e)) = -1)
    else (List.range nS).all (fun i => al.contains i || !xOf asn e i))

/-- `x[a][i] + x[b][j] <= 1`. -/
def notBoth (asn : List Nat) (a i b j : Nat) : Bool :=
  !(xOf asn a i && xOf asn b j)

/-- Number of students other than `a` seated on one of the listed
seats. -/
def othersCount (asn : List Nat) (nE a : Nat) (ids : List Nat) : Nat :=
  (((List.range nE).filter (fun e => e ≠ a)).map (fun e =>
    (ids.filter (fun i => xOf asn e i)).length)).sum

/-- All hard constraints of `_build_model` on the matrix induced by
`asn`: domains, exactly-one per student, at-most-one per seat, same
table, far apart, adjacency required, solo at table, no adjacent
neighbor, and the two empty-neighbor families (per seat and per
table). -/
def hardSat (eleves : List Eleve) (seats : List Seat)
    (allowed : List (List Nat)) (cs : List Contrainte)
    (edges : List (Nat × Nat)) (asn : List Nat) : Bool :=
  let nE := eleves.length
  let nS := seats.length
  domainsOK allowed nE nS asn &&
  (List.range nE).all (fun e => rowCount asn nS e = 1) &&
  (List.range nS).all (fun i => colCount asn nE i ≤ 1) &&
  -- (a) same table
  cs.all (fun c => match c with
    | .memeTable ea eb =>
        let a := eleves.indexOf ea
        let b := eleves.indexOf eb
        (List.range nS).all (fun i => (List.range nS).all (fun j =>
          match seats.get? i, seats.get? j with
          | some si, some sj =>
              si.tableKey = sj.tableKey || notBoth asn a i b j
          | _, _ => true))
    | _ => true) &&
  -- (b) far apart (grid or px)
  cs.all (fun c => match c with
    | .eloignes ea eb d metric enPix =>
        let a := eleves.indexOf ea
        let b := eleves.indexOf eb
        let usePx := enPix || metric = "px"
        (List.range nS).all (fun i => (List.range nS).all (fun j =>
          match seats.get? i, seats.get? j with
          | some si, some sj =>
              d ≤ seatDist usePx si sj || notBoth asn a i b j
          | _, _ => true))
    | _ => true) &&
  -- (c) adjacency required
  cs.all (fun c => match c with
    | .adjacents ea eb =>
        let a := eleves.indexOf ea
        let b := eleves.indexOf eb
        (List.range nS).all (fun i => (List.range nS).all (fun j =>
          if i = j || !(edges.contains (i, j) || edges.contains (j, i)) then
            notBoth asn a i b j
          else true))
    | _ => true) &&
  -- SEUL_A_TABLE
  cs.all (fun c => match c with
    | .seulATable em =>
        let a := eleves.indexOf em
        (seatsByTable seats).all (fun kv =>
          !(kv.2.any (fun i => xOf asn a i)) || othersCount asn nE a kv.2 = 0)
    | _ => true) &&
  -- NO_ADJACENT
  cs.all (fun c => match c with
    | .noAdjacent em =>
        let a := eleves.indexOf em
        (neighborKeys edges).all (fun i =>
          let adjI := neighborsOf edges i
          adjI.isEmpty || !xOf asn a i || othersCount asn nE a adjI = 0)
    | _ => true) &&
  -- EMPTY_NEIGHBOR, per seat
  cs.all (fun c => match c with
    | .voisinVide em =>
        let a := eleves.indexOf em
        (neighborKeys edges).all (fun i =>
          let adjI := neighborsOf edges i
          adjI.isEmpty ||
            (if xOf asn a i then 1 else 0) + (adjI.map (colCount asn nE)).sum
              ≤ adjI.length)
    | _ => true) &&
  -- EMPTY_NEIGHBOR, per table
  cs.all (fun c => match c with
    | .voisinVide em =>
        let a := eleves.indexOf em
        (seatsByTable seats).all (fun kv =>
          (kv.2.map (colCount asn nE)).sum +
            (if kv.2.any (fun i => xOf asn a i) then 1 else 0) ≤ kv.2.length)
    | _ => true)

/-! ### Objective values, as functions of the seat choice -/

/-- `occ[i]` as a boolean. -/
def occB (asn : List Nat) (i : Nat) : Bool :=
  asn.contains i

/-- `has_neighbor[i]`: an incident adjacency pair is fully
occupied. -/
def hasNeighborB (edges : List (Nat × Nat)) (asn : List Nat) (i : Nat) : Bool :=
  (neighborsOf edges i).any (fun j => occB asn i && occB asn j)

/-- `iso[i]`. -/
def isoB (edges : List (Nat × Nat)) (asn : List Nat) (i : Nat) : Bool :=
  occB asn i && !hasNeighborB edges asn i

/-- `nb_isoles`. -/
def nbIsolesOf (seats : List Seat) (edges : List (Nat × Nat))
    (asn : List Nat) : Int :=
  Int.ofNat (((List.range seats.length).filter (isoB edges asn)).length)

/-- `occ_f[i]` / `occ_m[i]`: a student of the given gender code sits on
seat `i`. -/
def occGender (eleves : List Eleve) (code : String) (asn : List Nat)
    (i : Nat) : Bool :=
  (List.range eleves.length).any (fun e =>
    (match eleves.get? e with
     | some el => genreCode el.genre = some code
     | none => false) && xOf asn e i)

/-- `nb_same`: fully-occupied same-gender adjacent pairs, feminine plus
masculine. -/
def nbSameOf (eleves : List Eleve) (edges : List (Nat × Nat))
    (asn : List Nat) : Int :=
  (edges.map (fun e =>
    (if occGender eleves "f" asn e.1 && occGender eleves "f" asn e.2 then (1 : Int) else 0) +
    (if occGender eleves "m" asn e.1 && occGender eleves "m" asn e.2 then (1 : Int) else 0))).sum

/-- `sumY`: the sum over students of the `py` of their seat (grid `y`
when no geometry is supplied). -/
def sumYOf (eleves : List Eleve) (seats : List Seat) (asn : List Nat) : Int :=
  ((List.range eleves.length).map (fun e =>
    match asn.get? e with
    | some i => match seats.get? i with
      | some st => st.py
      | none => 0
    | none => 0)).sum

/-- The pass-4 objective `sum w[e,i] * x[e][i]`: every weight is
`random.Random(seed).randrange(1, 1_000_000)` evaluated on a fresh
generator, hence the same value `cfg.seedDraw` for every `(e, i)`. -/
def randObjOf (cfg : SolverCfg) (eleves : List Eleve) (seats : List Seat)
    (asn : List Nat) : Int :=
  ((List.range eleves.length).map (fun e =>
    ((List.range seats.length).map (fun i =>
      if xOf asn e i then cfg.seedDraw else 0)).sum)).sum

/-! ### The engine, modelled from the spec, and the lexicographic
driver -/

/-- Cartesian product of per-student domains: every total choice of one
allowed seat per student. -/
def cartProd : List (List Nat) → List (List Nat)
  | [] => [[]]
  | l :: rest => l.flatMap (fun a => (cartProd rest).map (fun t => a :: t))

/-- All model-feasible solutions: one allowed seat per student,
re-checked against every hard constraint. -/
def feasibleAsns (eleves : List Eleve) (seats : List Seat)
    (allowed : List (List Nat)) (cs : List Contrainte)
    (edges : List (Nat × Nat)) : List (List Nat) :=
  (cartProd allowed).filter (hardSat eleves seats allowed cs edges)

/-- Modelled from the spec: `CpSolver.Solve` — the external OR-Tools
CP-SAT engine, which is not repository code — returns an optimal
feasible solution of the current model, or reports infeasibility when
the feasible set is empty; which co-optimal solution is returned is
engine-internal.  Modelled as the first optimum in enumeration
order. -/
def pickOpt (cands : List (List Nat)) (score : List Nat → Int)
    (maximize : Bool) : Option (List Nat) :=
  cands.foldl (fun acc c =>
    match acc with
    | none => some c
    | some b =>
        if (if maximize then score b < score c else score c < score b) then some c
        else acc) none

/-- The reconstruction loop (`resoudre`, both the pass-4 and pass-3
variants): for each student in order, the first seat whose variable is
1; `none` when some student has none. -/
def firstSeatOf (asn : List Nat) (nS e : Nat) : Option Nat :=
  (List.range nS).find? (fun i => xOf asn e i)

/-- Pair each student with the seat found for them. -/
def reconstructAux (seats : List Seat) (asn : List Nat) :
    List Eleve → Nat → Option Affectation
  | [], _ => some []
  | e :: rest, idx =>
      match firstSeatOf asn seats.length idx with
      | none => none
      | some i =>
          match seats.get? i with
          | none => none
          | some st =>
              match reconstructAux seats asn rest (idx + 1) with
              | none => none
              | some tail => some ((e, ⟨st.x, st.y, st.s⟩) :: tail)

/-- Reconstruct the assignment dict from a solver solution. -/
def reconstructAff (eleves : List Eleve) (seats : List Seat)
    (asn : List Nat) : Option Affectation :=
  reconstructAux seats asn eleves 0

/-! ### Final validators -/

/-- `_pxpy` of `SolveurCPSAT.valider_final`: pixel coordinates of a
position under the configured geometry (grid coordinates without
one). -/
def pxpyOf (cfg : SolverCfg) (p : Position) : Int × Int :=
  match cfg.geom with
  | none => (p.x, p.y)
  | some g =>
      let d := (dget cfg.tableOffsets (p.x, p.y)).getD (0, 0)
      (p.x * g.tablePitchX + d.1 + g.seatOffsetX + p.siege * g.seatPitchX,
       p.y * g.tablePitchY + d.2 + g.seatOffsetY)

/-- `by_xy[(x, y)]`: the seat → student dict of one table, built from
the assignment items in order (later writers overwrite). -/
def occXYitems (aff : Affectation) (x y : Int) : List (Int × Eleve) :=
  dictOfList ((aitems aff).filterMap (fun ep =>
    if ep.2.x = x && ep.2.y = y then some (ep.2.siege, ep.1) else none))

/-- `max(occ_xy.keys(), default=-1)`. -/
def maxKeyD (occ : List (Int × Eleve)) : Int :=
  ((occ.map (fun se => se.1)).max?).getD (-1)

/-- The first loop of `SolveurCPSAT.valider_final`: the three unary
kinds it re-checks.  Note the `DoitAvoirVoisinVide` rule is based on
the occupied seat indices of the table, not on its capacity. -/
def checkUnaire (aff : Affectation) (c : Contrainte) : Bool :=
  match c with
  | .seulATable em =>
      match aget aff em with
      | none => true
      | some p =>
          let occ := occXYitems aff p.x p.y
          !(occ.any (fun se => se.2 ≠ em))
  | .noAdjacent em =>
      match aget aff em with
      | none => true
      | some p =>
          let occ := occXYitems aff p.x p.y
          let violG := match dget occ (p.siege - 1) with
            | some e2 => e2 ≠ em
            | none => false
          let violD := match dget occ (p.siege + 1) with
            | some e2 => e2 ≠ em
            | none => false
          !(violG || violD)
  | .voisinVide em =>
      match aget aff em with
      | none => true
      | some p =>
          let occ := occXYitems aff p.x p.y
          let mx := maxKeyD occ
          let valides := [p.siege - 1, p.siege + 1].filter
            (fun s => 0 ≤ s && s < mx + 2)
          if valides.isEmpty then true
          else !(valides.all (fun s => (dget occ s).isSome))
  | _ => true

/-- The second loop of `SolveurCPSAT.valider_final`: the three binary
kinds.  `same_table` / the adjacency check treat an unplaced student as
a violation; far-apart skips unplaced students and uses the pixel
distance exactly when the constraint asks for pixels AND a geometry is
configured. -/
def checkBinaire (cfg : SolverCfg) (aff : Affectation) (c : Contrainte) : Bool :=
  match c with
  | .memeTable a b =>
      match aget aff a, aget aff b with
      | some pa, some pb => memeTableB pa pb
      | _, _ => false
  | .adjacents a b =>
      match aget aff a, aget aff b with
      | some pa, some pb => memeTableB pa pb && (pa.siege - pb.siege).natAbs = 1
      | _, _ => false
  | .eloignes a b d metric enPix =>
      match aget aff a, aget aff b with
      | some pa, some pb =>
          let usePx := enPix || metric = "px"
          let dij : Int :=
            if usePx && cfg.geom.isSome then
              let ca := pxpyOf cfg pa
              let cb := pxpyOf cfg pb
              Int.ofNat ((ca.1 - cb.1).natAbs + (ca.2 - cb.2).natAbs)
            else Int.ofNat ((pa.x - pb.x).natAbs + (pa.y - pb.y).natAbs)
          !(dij < d)
      | _, _ => true
  | _ => true

/-- `SolveurCPSAT.valider_final`: the override actually used by
`resoudre`.  It re-checks ONLY the six kinds of `checkUnaire` /
`checkBinaire`; front rows, back rows, exact seats, forbidden tables
and forbidden seats are not re-checked.  (`salle` is a parameter of the
source method but is never read by it.) -/
def validerFinalCPSAT (cfg : SolverCfg) (salle : Salle) (aff : Affectation)
    (cs : List Contrainte) : Bool :=
  let _ := salle
  cs.all (checkUnaire aff) && cs.all (checkBinaire cfg aff)

/-- Occupants of a table in the assignment (`Solveur.valider_final`
counts per `(x, y)` key). -/
def occCountAt (aff : Affectation) (xy : Int × Int) : Nat :=
  ((aitems aff).filter (fun ep => (ep.2.x, ep.2.y) = xy)).length

/-- `Solveur.valider_final` from `solveurs/base.py` (the base-class
version, which `SolveurCPSAT` overrides): an empty-neighbor student
must sit at a table with strictly fewer occupants than its capacity; an
unplaced empty-neighbor student is a failure. -/
def validerFinalBase (salle : Salle) (aff : Affectation)
    (cs : List Contrainte) : Bool :=
  let capacites := salle.capaciteParTable
  cs.all (fun c =>
    match c with
    | .voisinVide em =>
        match aget aff em with
        | none => false
        | some p =>
            let occ := Int.ofNat (occCountAt aff (p.x, p.y))
            let cap := (dget capacites (p.x, p.y)).getD 0
            occ < cap
    | _ => true)

/-! ### The lexicographic driver (`resoudre`) -/

/-- Reconstruction of a pass-3 solution followed by the final
validation (`resoudre`, lines 219-235). -/
def reconstructValide (cfg : SolverCfg) (salle : Salle) (eleves : List Eleve)
    (cs : List Contrainte) (seats : List Seat) (asn : List Nat) :
    Except SolveErr (Option Affectation) :=
  match reconstructAff eleves seats asn with
  | none => .ok none
  | some aff =>
      if validerFinalCPSAT cfg salle aff cs then .ok (some aff)
      else .ok none

/-- PASS 4 (random tiebreak): `some r` means `resoudre` returns `r`
immediately, `none` means it falls through to the pass-3
reconstruction (pass infeasible, or final validation of the pass-4
assignment failed); a failed pass-4 reconstruction returns the
no-solution outcome at once. -/
def pass4Try (cfg : SolverCfg) (salle : Salle) (eleves : List Eleve)
    (cs : List Contrainte) (seats : List Seat) (feas : List (List Nat))
    (freeze4 : List Nat → Bool) : Option (Option Affectation) :=
  if cfg.tiebreakRandom then
    match pickOpt (feas.filter freeze4) (randObjOf cfg eleves seats) true with
    | none => none
    | some s4 =>
      match reconstructAff eleves seats s4 with
      | none => some none
      | some aff4 =>
          if validerFinalCPSAT cfg salle aff4 cs then some (some aff4)
          else none
  else none

def solvePass34 (cfg : SolverCfg) (salle : Salle) (eleves : List Eleve)
    (cs : List Contrainte) (seats : List Seat) (feas : List (List Nat))
    (freeze3 : List Nat → Bool) : Except SolveErr (Option Affectation) :=
  -- PASS 3: freeze the previous optima, then minimise the row sum
  match pickOpt (feas.filter freeze3) (sumYOf eleves seats) false with
  | none => .ok none
  | some s3 =>
    match pass4Try cfg salle eleves cs seats feas
        (fun a => freeze3 a && sumYOf eleves seats a = sumYOf eleves seats s3) with
    | some r => .ok r
    | none => reconstructValide cfg salle eleves cs seats s3

/-- Passes 1 to 4 of `resoudre`, after the domains are built: each pass
filters the feasible set by the frozen optima of the previous passes
and optimises its own objective through the engine (`pickOpt`).
`essais_max` and the time budget do not alter which solutions exist and
are not modelled. -/
def solvePasses (cfg : SolverCfg) (salle : Salle) (eleves : List Eleve)
    (cs : List Contrainte) (seats : List Seat) (allowed : List (List Nat))
    (edges : List (Nat × Nat)) : Except SolveErr (Option Affectation) :=
  let feas := feasibleAsns eleves seats allowed cs edges
  let objIso := nbIsolesOf seats edges
  let objSame := nbSameOf eleves edges
  let objSumY := sumYOf eleves seats
  -- PASS 1
  let p1 := if cfg.preferAlone then pickOpt feas objIso true
            else if cfg.preferMixage then pickOpt feas objSame false
            else pickOpt feas objSumY false
  match p1 with
  | none => .ok none
  | some s1 =>
    -- PASS 2 (only when both preferences are active; the primary key
    -- is then necessarily the isolation count)
    let pass2 : Option (Int × Int) :=
      if cfg.preferAlone && cfg.preferMixage then
        match pickOpt (feas.filter (fun a => objIso a = objIso s1)) objSame false with
        | none => none
        | some s2 => some (objIso s2, objSame s2)
      else some (objIso s1, objSame s1)
    match pass2 with
    | none => .ok none
    | some bests =>
      solvePass34 cfg salle eleves cs seats feas (fun a =>
        (!cfg.preferAlone || objIso a = bests.1) &&
        (!cfg.preferMixage || objSame a = bests.2))

/-- `SolveurCPSAT.resoudre`: sanity checks, seat enumeration, domain
computation, exact-seat pass, adjacency edges, then the lexicographic
passes.  Failures of the pre-flight stages propagate as the Python
exceptions do; infeasibility of any pass is `ok none`. -/
def resoudre (cfg : SolverCfg) (salle : Salle) (eleves : List Eleve)
    (cs : List Contrainte) : Except SolveErr (Option Affectation) :=
  match sanityCheck salle eleves cs with
  | .error e => .error e
  | .ok () =>
    let seats := enumerateSeats salle cfg.geom cfg.tableOffsets
    match computeAllowedDomains cfg salle eleves cs seats with
    | .error e => .error e
    | .ok d0 =>
      match applyExactSeats cs eleves seats d0 with
      | .error e => .error e
      | .ok allowed =>
          solvePasses cfg salle eleves cs seats allowed
            (adjacentEdgesSameTable seats)

/-! ## Concrete fixtures shared by several closed statements -/

/-- The default solver configuration (the constructor defaults of
`SolveurCPSAT`: both preferences on, random tiebreak on, no geometry,
no visual row data). -/
def cfgDefaut : SolverCfg := {}

/-- A feminine student. -/
def elA : Eleve := ⟨"ALICE", "f"⟩

/-- A masculine student. -/
def elB : Eleve := ⟨"BOB", "m"⟩

/-! ## Lemma layer: sorting -/

theorem insertAsc_perm (a : Int) (l : List Int) : (insertAsc a l).Perm (a :: l) := by
  induction l with
  | nil => simp [insertAsc]
  | cons b t ih =>
      by_cases h : a ≤ b
      · simp [insertAsc, h]
      · simp only [insertAsc, if_neg h]
        exact ((ih.cons b).trans (List.Perm.swap a b t))

theorem insSort_perm (l : List Int) : (insSort l).Perm l := by
  induction l with
  | nil => simp [insSort]
  | cons a t ih =>
      simp only [insSort, List.foldr_cons]
      exact (insertAsc_perm a _).trans (ih.cons a)

theorem mem_insSort {a : Int} {l : List Int} : a ∈ insSort l ↔ a ∈ l :=
  (insSort_perm l).mem_iff

theorem insSort_nodup {l : List Int} (h : l.Nodup) : (insSort l).Nodup :=
  ((insSort_perm l).nodup_iff).mpr h

theorem insertAsc_sorted {a : Int} {l : List Int} (h : l.Sorted (· ≤ ·)) :
    (insertAsc a l).Sorted (· ≤ ·) := by
  induction l with
  | nil => simp [insertAsc]
  | cons b t ih =>
      rcases List.sorted_cons.mp h with ⟨hb, ht⟩
      by_cases hab : a ≤ b
      · simp only [insertAsc, if_pos hab]
        refine List.sorted_cons.mpr ⟨?_, h⟩
        intro c hc
        rcases List.mem_cons.mp hc with rfl | hc
        · exact hab
        · exact le_trans hab (hb c hc)
      · simp only [insertAsc, if_neg hab]
        refine List.sorted_cons.mpr ⟨?_, ih ht⟩
        intro c hc
        rcases List.mem_cons.mp ((insertAsc_perm a t).mem_iff.mp hc) with rfl | h1
        · exact le_of_lt (lt_of_not_le hab)
        · exact hb c h1

theorem insSort_sorted (l : List Int) : (insSort l).Sorted (· ≤ ·) := by
  induction l with
  | nil => simp [insSort]
  | cons a t ih =>
      simp only [insSort, List.foldr_cons]
      exact insertAsc_sorted ih

/-- In a sorted list whose `< k` part has at least `k.toNat` elements,
the first `k.toNat` elements are all `< k`. -/
theorem sorted_take_all_lt (k : Int) :
    ∀ (L : List Int), L.Sorted (· ≤ ·) →
      ∀ n : Nat, n ≤ (L.filter (fun v => v < k)).length →
        ∀ y ∈ L.take n, y < k := by
  intro L
  induction L with
  | nil => intro _ n _ y hy; simp at hy
  | cons a t ih =>
      intro hs n hn y hy
      rcases List.sorted_cons.mp hs with ⟨ha, ht⟩
      by_cases hak : a < k
      · cases n with
        | zero => simp at hy
        | succ m =>
            simp only [List.take_succ_cons, List.mem_cons] at hy
            rcases hy with rfl | hy
            · exact hak
            · refine ih ht m ?_ y hy
              have : (List.filter (fun v => decide (v < k)) (a :: t)).length
                  = (List.filter (fun v => decide (v < k)) t).length + 1 := by
                simp [List.filter_cons, hak]
              omega
      · -- every element of `a :: t` is `>= a >= k`, so the filter is empty
        have hfe : (a :: t).filter (fun v => v < k) = [] := by
          rw [List.filter_eq_nil]
          intro b hb
          rcases List.mem_cons.mp hb with rfl | hb
          · simpa using hak
          · have := ha b hb
            simp only [decide_eq_true_eq]
            omega
        rw [hfe] at hn
        have hn0 : n = 0 := by simpa using hn
        subst hn0
        simp at hy

/-- Distinct values `0 .. k-1` inside a nodup list force its `< k`
filter to have at least `k.toNat` elements. -/
theorem filter_lt_length_ge (k : Int) (L : List Int) (hnd : L.Nodup)
    (hmem : ∀ j : Int, 0 ≤ j → j < k → j ∈ L) :
    k.toNat ≤ (L.filter (fun v => v < k)).length := by
  classical
  set F := L.filter (fun v => v < k) with hF
  have hsub : ((List.range k.toNat).map Int.ofNat) ⊆ F := by
    intro v hv
    rcases List.mem_map.mp hv with ⟨j, hj, rfl⟩
    have hjr := List.mem_range.mp hj
    have hjk : Int.ofNat j < k := by rw [Int.ofNat_eq_natCast]; omega
    have hjm : Int.ofNat j ∈ L :=
      hmem _ (by rw [Int.ofNat_eq_natCast]; omega) hjk
    rw [hF]
    exact List.mem_filter.mpr ⟨hjm, by simpa using hjk⟩
  have hndm : ((List.range k.toNat).map Int.ofNat).Nodup :=
    (List.nodup_range k.toNat).map (fun a b h => Int.ofNat.inj h)
  have h1 : ((List.range k.toNat).map Int.ofNat).toFinset ⊆ F.toFinset := by
    intro v hv
    exact List.mem_toFinset.mpr (hsub (List.mem_toFinset.mp hv))
  have h2 := Finset.card_le_card h1
  rw [List.toFinset_card_of_nodup hndm] at h2
  simp only [List.length_map, List.length_range] at h2
  exact le_trans h2 (List.toFinset_card_le F)

/-! ## Lemma layer: dict helpers -/

theorem dictOfList_eq_self {κ ν : Type} [DecidableEq κ] :
    ∀ (l acc : List (κ × ν)),
      ((acc ++ l).map Prod.fst).Nodup →
      l.foldl (fun a kv => dinsert a kv.1 kv.2) acc = acc ++ l := by
  intro l
  induction l with
  | nil => intro acc _; simp
  | cons kv rest ih =>
      intro acc hnd
      have hk : (acc.any (fun e => e.1 = kv.1)) = false := by
        rw [List.any_eq_false]
        intro e he
        simp only [decide_eq_true_eq]
        intro heq
        have h1 : kv.1 ∈ acc.map Prod.fst := List.mem_map.mpr ⟨e, he, heq⟩
        have h2 : kv.1 ∈ (kv :: rest).map Prod.fst := by simp
        have hd : List.Disjoint (acc.map Prod.fst) ((kv :: rest).map Prod.fst) := by
          rw [List.map_append] at hnd
          exact List.disjoint_of_nodup_append hnd
        exact hd h1 h2
      have hstep : dinsert acc kv.1 kv.2 = acc ++ [kv] := by
        simp [dinsert, hk]
      simp only [List.foldl_cons, hstep]
      have : ((acc ++ [kv]) ++ rest).map Prod.fst |>.Nodup := by
        simpa using hnd
      have := ih (acc ++ [kv]) this
      simpa using this

/-- A raw association list with distinct keys is already in dict
form. -/
theorem dictOfList_self {κ ν : Type} [DecidableEq κ] (l : List (κ × ν))
    (h : (l.map Prod.fst).Nodup) : dictOfList l = l := by
  simpa using dictOfList_eq_self l [] (by simpa using h)

/-- Lookup of a present key, when keys are distinct. -/
theorem dget_of_mem {κ ν : Type} [DecidableEq κ] {l : List (κ × ν)}
    {k : κ} {v : ν} (h : (k, v) ∈ l) (hnd : (l.map Prod.fst).Nodup) :
    dget l k = some v := by
  induction l with
  | nil => simp at h
  | cons kv rest ih =>
      rcases List.mem_cons.mp h with rfl | hmem
      · simp [dget, List.find?]
      · have hk : kv.1 ≠ k := by
          intro he
          have : k ∈ rest.map Prod.fst := List.mem_map.mpr ⟨(k, v), hmem, rfl⟩
          rw [List.map_cons, List.nodup_cons, he] at hnd
          exact hnd.1 this
        have hrest := ih hmem (by
          rw [List.map_cons, List.nodup_cons] at hnd
          exact hnd.2)
        simp only [dget, List.find?] at hrest ⊢
        have : (decide (kv.1 = k)) = false := by simpa using hk
        rw [this]
        exact hrest

/-! ## Lemma layer: room geometry -/

theorem mem_rowTables {t : Table} :
    ∀ {x y : Int} {l : List Int}, t ∈ rowTables x y l →
      t.y = y ∧ x ≤ t.x ∧ 0 < t.capacite := by
  intro x y l
  induction l generalizing x with
  | nil => intro h; simp [rowTables] at h
  | cons cap rest ih =>
      intro h
      simp only [rowTables, List.mem_append] at h
      rcases h with h | h
      · by_cases hc : 0 < cap
        · simp [hc] at h
          subst h
          exact ⟨rfl, le_refl _, hc⟩
        · simp [hc] at h
      · rcases ih h with ⟨h1, h2, h3⟩
        exact ⟨h1, by omega, h3⟩

theorem rowTables_pairwise_x :
    ∀ (x y : Int) (l : List Int),
      (rowTables x y l).Pairwise (fun a b => a.x < b.x) := by
  intro x y l
  induction l generalizing x with
  | nil => simp [rowTables]
  | cons cap rest ih =>
      simp only [rowTables]
      by_cases hc : 0 < cap
      · simp only [if_pos hc, List.singleton_append, List.pairwise_cons]
        refine ⟨?_, ih (x + 1)⟩
        intro b hb
        have h2 := (mem_rowTables hb).2.1
        show x < b.x
        omega
      · simpa [if_neg hc] using ih (x + 1)

theorem mem_schemaTables {t : Table} :
    ∀ {y : Int} {rows : List (List Int)}, t ∈ schemaTables y rows →
      y ≤ t.y ∧ 0 < t.capacite := by
  intro y rows
  induction rows generalizing y with
  | nil => intro h; simp [schemaTables] at h
  | cons ligne rest ih =>
      intro h
      simp only [schemaTables, List.mem_append] at h
      rcases h with h | h
      · rcases mem_rowTables h with ⟨h1, _, h3⟩
        exact ⟨le_of_eq h1.symm, h3⟩
      · rcases ih h with ⟨h1, h2⟩
        exact ⟨by omega, h2⟩

theorem schemaTables_pairwise :
    ∀ (y : Int) (rows : List (List Int)),
      (schemaTables y rows).Pairwise (fun a b => (a.x, a.y) ≠ (b.x, b.y)) := by
  intro y rows
  induction rows generalizing y with
  | nil => simp [schemaTables]
  | cons ligne rest ih =>
      simp only [schemaTables]
      rw [List.pairwise_append]
      refine ⟨?_, ih (y + 1), ?_⟩
      · exact (rowTables_pairwise_x 0 y ligne).imp (by
          intro a b hab
          intro he
          rw [Prod.mk.injEq] at he
          omega)
      · intro a ha b hb
        have h1 := (mem_rowTables ha).1
        have h2 := (mem_schemaTables hb).1
        intro he
        rw [Prod.mk.injEq] at he
        omega

theorem tables_pairwise (s : Salle) :
    s.tables.Pairwise (fun a b => (a.x, a.y) ≠ (b.x, b.y)) :=
  schemaTables_pairwise 0 s.schema

theorem tables_cap_pos {s : Salle} {t : Table} (h : t ∈ s.tables) :
    0 < t.capacite :=
  (mem_schemaTables h).2

theorem mem_places {t : Table} {p : Position} (h : p ∈ t.places) :
    p.x = t.x ∧ p.y = t.y := by
  rcases List.mem_map.mp h with ⟨s, _, rfl⟩
  exact ⟨rfl, rfl⟩

theorem places_nodup (t : Table) : t.places.Nodup := by
  refine (List.nodup_range _).map ?_
  intro a b hab
  have h1 : Int.ofNat a = Int.ofNat b := congrArg Position.siege hab
  exact Int.ofNat.inj h1

theorem toutesLesPlaces_nodup (s : Salle) : s.toutesLesPlaces.Nodup := by
  rw [Salle.toutesLesPlaces, List.nodup_flatMap]
  refine ⟨fun t _ => places_nodup t, ?_⟩
  refine (tables_pairwise s).imp ?_
  intro a b hab
  rw [Function.onFun, List.disjoint_left]
  intro p hpa hpb
  rcases mem_places hpa with ⟨h1, h2⟩
  rcases mem_places hpb with ⟨h3, h4⟩
  exact hab (by rw [Prod.mk.injEq]; constructor <;> omega)

/-- A table of the room contributes its seat 0 to the seat list. -/
theorem seat_zero_mem {s : Salle} {t : Table} (h : t ∈ s.tables) :
    (⟨t.x, t.y, 0⟩ : Position) ∈ s.toutesLesPlaces := by
  rw [Salle.toutesLesPlaces, List.mem_flatMap]
  refine ⟨t, h, ?_⟩
  rw [Table.places, List.mem_map]
  refine ⟨0, ?_, rfl⟩
  have := tables_cap_pos h
  simp only [List.mem_range]
  omega

/-! ## Lemma layer: seat enumeration -/

/-- The grid position of an enumerated seat. -/
def seatPos (st : Seat) : Position :=
  ⟨st.x, st.y, st.s⟩

theorem mkSeat_pos (g : Option GeomPixels) (o : List ((Int × Int) × (Int × Int)))
    (i : Nat) (p : Position) : seatPos (mkSeat g o i p) = p := by
  cases g <;> rfl

theorem mkSeat_idx (g : Option GeomPixels) (o : List ((Int × Int) × (Int × Int)))
    (i : Nat) (p : Position) : (mkSeat g o i p).idx = i := by
  cases g <;> rfl

theorem enumSeatsAux_get? (g : Option GeomPixels)
    (o : List ((Int × Int) × (Int × Int))) :
    ∀ (ps : List Position) (n j : Nat),
      (enumSeatsAux g o n ps).get? j = (ps.get? j).map (fun p => mkSeat g o (n + j) p) := by
  intro ps
  induction ps with
  | nil => intro n j; simp [enumSeatsAux]
  | cons p rest ih =>
      intro n j
      cases j with
      | zero => simp [enumSeatsAux]
      | succ m =>
          simp only [enumSeatsAux, List.get?_cons_succ]
          rw [ih (n + 1) m]
          have : n + 1 + m = n + (m + 1) := by omega
          rw [this]

theorem enumSeatsAux_length (g : Option GeomPixels)
    (o : List ((Int × Int) × (Int × Int))) :
    ∀ (ps : List Position) (n : Nat), (enumSeatsAux g o n ps).length = ps.length := by
  intro ps
  induction ps with
  | nil => intro n; rfl
  | cons p rest ih => intro n; simp [enumSeatsAux, ih]

theorem enumerateSeats_length (salle : Salle) (g : Option GeomPixels)
    (o : List ((Int × Int) × (Int × Int))) :
    (enumerateSeats salle g o).length = salle.toutesLesPlaces.length :=
  enumSeatsAux_length g o _ 0

theorem enumerateSeats_get? (salle : Salle) (g : Option GeomPixels)
    (o : List ((Int × Int) × (Int × Int))) (j : Nat) :
    (enumerateSeats salle g o).get? j
      = (salle.toutesLesPlaces.get? j).map (fun p => mkSeat g o j p) := by
  have := enumSeatsAux_get? g o salle.toutesLesPlaces 0 j
  simpa [enumerateSeats] using this

theorem seats_get?_idx {salle : Salle} {g : Option GeomPixels}
    {o : List ((Int × Int) × (Int × Int))} {j : Nat} {st : Seat}
    (h : (enumerateSeats salle g o).get? j = some st) : st.idx = j := by
  rw [enumerateSeats_get? salle g o j] at h
  rcases Option.map_eq_some'.mp h with ⟨p, _, rfl⟩
  exact mkSeat_idx g o j p

theorem seats_get?_pos {salle : Salle} {g : Option GeomPixels}
    {o : List ((Int × Int) × (Int × Int))} {j : Nat} {st : Seat}
    (h : (enumerateSeats salle g o).get? j = some st) :
    salle.toutesLesPlaces.get? j = some (seatPos st) := by
  rw [enumerateSeats_get? salle g o j] at h
  rcases Option.map_eq_some'.mp h with ⟨p, hp, rfl⟩
  rw [mkSeat_pos]
  exact hp

theorem mem_seats_get {salle : Salle} {g : Option GeomPixels}
    {o : List ((Int × Int) × (Int × Int))} {st : Seat}
    (h : st ∈ enumerateSeats salle g o) :
    (enumerateSeats salle g o).get? st.idx = some st := by
  rcases List.get?_of_mem h with ⟨j, hj⟩
  have := seats_get?_idx hj
  rw [← this] at hj
  exact hj

theorem seats_map_pos (salle : Salle) (g : Option GeomPixels)
    (o : List ((Int × Int) × (Int × Int))) :
    (enumerateSeats salle g o).map seatPos = salle.toutesLesPlaces := by
  have aux : ∀ (ps : List Position) (n : Nat),
      (enumSeatsAux g o n ps).map seatPos = ps := by
    intro ps
    induction ps with
    | nil => intro n; rfl
    | cons p rest ih =>
        intro n
        simp [enumSeatsAux, mkSeat_pos, ih (n + 1)]
  exact aux _ 0

theorem mem_seats_pos {salle : Salle} {g : Option GeomPixels}
    {o : List ((Int × Int) × (Int × Int))} {st : Seat}
    (h : st ∈ enumerateSeats salle g o) :
    seatPos st ∈ salle.toutesLesPlaces := by
  rw [← seats_map_pos salle g o]
  exact List.mem_map.mpr ⟨st, h, rfl⟩

theorem seats_map_idx (salle : Salle) (g : Option GeomPixels)
    (o : List ((Int × Int) × (Int × Int))) :
    (enumerateSeats salle g o).map Seat.idx
      = List.range salle.toutesLesPlaces.length := by
  have aux : ∀ (ps : List Position) (n : Nat),
      (enumSeatsAux g o n ps).map Seat.idx = List.range' n ps.length := by
    intro ps
    induction ps with
    | nil => intro n; rfl
    | cons p rest ih =>
        intro n
        simp [enumSeatsAux, mkSeat_idx, ih (n + 1), List.range'_succ]
  rw [enumerateSeats, aux _ 0, List.range_eq_range']

/-- The seat-matching predicate of `_seat_index_of` holds exactly when
the seat sits at the looked-up position. -/
theorem seatMatch_iff (p : Position) (st : Seat) :
    ((st.x = p.x && st.y = p.y && st.s = p.siege) = true) ↔ seatPos st = p := by
  constructor
  · intro h
    simp only [Bool.and_eq_true, decide_eq_true_eq] at h
    rcases h with ⟨⟨h1, h2⟩, h3⟩
    simp [seatPos, h1, h2, h3]
  · intro h
    have h1 : st.x = p.x := congrArg Position.x h
    have h2 : st.y = p.y := congrArg Position.y h
    have h3 : st.s = p.siege := congrArg Position.siege h
    simp [h1, h2, h3]

theorem seatIndexOf_err_of_not_mem {salle : Salle} {g : Option GeomPixels}
    {o : List ((Int × Int) × (Int × Int))} {p : Position}
    (h : p ∉ salle.toutesLesPlaces) :
    seatIndexOf p (enumerateSeats salle g o)
      = .error (.keyError "Position inconnue dans l inventaire des sieges") := by
  rw [seatIndexOf]
  have : (enumerateSeats salle g o).find?
      (fun st => st.x = p.x && st.y = p.y && st.s = p.siege) = none := by
    rw [List.find?_eq_none]
    intro st hst hmatch
    exact h (by rw [← (seatMatch_iff p st).mp hmatch]; exact mem_seats_pos hst)
  rw [this]

theorem seatIndexOf_ok_of_mem {salle : Salle} {g : Option GeomPixels}
    {o : List ((Int × Int) × (Int × Int))} {p : Position}
    (h : p ∈ salle.toutesLesPlaces) :
    ∃ i, seatIndexOf p (enumerateSeats salle g o) = .ok i := by
  rcases List.get?_of_mem h with ⟨j, hj⟩
  have hseat : (enumerateSeats salle g o).get? j = some (mkSeat g o j p) := by
    rw [enumerateSeats_get? salle g o j, hj]; rfl
  have hmem : mkSeat g o j p ∈ enumerateSeats salle g o :=
    List.get?_mem hseat
  have : ((enumerateSeats salle g o).find?
      (fun st => st.x = p.x && st.y = p.y && st.s = p.siege)).isSome = true := by
    rw [List.find?_isSome]
    exact ⟨mkSeat g o j p, hmem, (seatMatch_iff p _).mpr (mkSeat_pos g o j p)⟩
  rcases Option.isSome_iff_exists.mp this with ⟨st, hst⟩
  exact ⟨st.idx, by rw [seatIndexOf, hst]⟩

theorem seatIndexOf_ok_spec {seats : List Seat} {p : Position} {i : Nat}
    (h : seatIndexOf p seats = .ok i) :
    ∃ st ∈ seats, seatPos st = p ∧ st.idx = i := by
  rw [seatIndexOf] at h
  cases hf : seats.find? (fun st => st.x = p.x && st.y = p.y && st.s = p.siege) with
  | none => rw [hf] at h; exact absurd h (by simp)
  | some st =>
      rw [hf] at h
      have hmem := List.mem_of_find?_eq_some hf
      have hpred := List.find?_some hf
      have hp := (seatMatch_iff p st).mp hpred
      exact ⟨st, hmem, hp, by exact Except.ok.inj h⟩

/-! ## Lemma layer: domain shrinking -/

/-- Pointwise inclusion of domain tables (with equal shape). -/
def DomLe (d' d : List (List Nat)) : Prop :=
  d'.length = d.length ∧
    ∀ i l' l, d'.get? i = some l' → d.get? i = some l → l' ⊆ l

theorem domLe_refl {d : List (List Nat)} : DomLe d d :=
  ⟨Eq.refl _, fun _ l' l h1 h2 => by rw [h1] at h2; cases h2; exact fun _ h => h⟩

theorem domLe_trans {d1 d2 d3 : List (List Nat)}
    (h12 : DomLe d1 d2) (h23 : DomLe d2 d3) : DomLe d1 d3 := by
  refine ⟨h12.1.trans h23.1, ?_⟩
  intro i l1 l3 h1 h3
  have hlen12 := h12.1
  have hi : i < d2.length := by
    have hx : i < d1.length := (List.get?_eq_some.mp h1).1
    omega
  have h2 : ∃ l2, d2.get? i = some l2 := by
    cases hm : d2.get? i with
    | none => exact absurd (List.get?_eq_none.mp hm) (by omega)
    | some l2 => exact ⟨l2, Eq.refl _⟩
  rcases h2 with ⟨l2, hl2⟩
  exact (h12.2 i l1 l2 h1 hl2).trans (h23.2 i l2 l3 hl2 h3)

theorem interL_sub_left (l ids : List Nat) : interL l ids ⊆ l :=
  fun v hv => (List.mem_filter.mp hv).1

theorem interL_sub_right (l ids : List Nat) : interL l ids ⊆ ids := by
  intro v hv
  have := (List.mem_filter.mp hv).2
  simpa using this

theorem domInter_DomLe (d : List (List Nat)) (i : Nat) (ids : List Nat) :
    DomLe (domInter d i ids) d := by
  rw [domInter]
  cases hm : d.get? i with
  | none => exact domLe_refl
  | some l =>
      refine ⟨List.length_set d i _, ?_⟩
      intro j l' lj h1 h2
      by_cases hji : j = i
      · subst hji
        rw [List.get?_set_eq, hm] at h1
        have h1' : interL l ids = l' := by simpa using h1
        rw [hm] at h2
        have h2' := Option.some.inj h2
        rw [← h1', ← h2']
        exact interL_sub_left _ _
      · rw [List.get?_set_ne _ _ (fun h => hji h.symm)] at h1
        rw [h1] at h2
        have h2' := Option.some.inj h2
        rw [← h2']
        exact fun _ h => h

theorem domInter_get_self {d : List (List Nat)} {i : Nat} {ids l : List Nat}
    (h : d.get? i = some l) :
    (domInter d i ids).get? i = some (interL l ids) := by
  rw [domInter, h, List.get?_set_eq]
  rw [h]
  rfl

theorem domInter_get_other {d : List (List Nat)} {i j : Nat} {ids : List Nat}
    (h : j ≠ i) : (domInter d i ids).get? j = d.get? j := by
  rw [domInter]
  cases hm : d.get? i with
  | none => rfl
  | some l => exact List.get?_set_ne _ _ (fun he => h he.symm)

theorem foldl_domInter_DomLe (ids : List Nat) :
    ∀ (ts : List Nat) (d : List (List Nat)),
      DomLe (ts.foldl (fun d i => domInter d i ids) d) d := by
  intro ts
  induction ts with
  | nil => intro d; exact domLe_refl
  | cons t rest ih =>
      intro d
      exact domLe_trans (ih (domInter d t ids)) (domInter_DomLe d t ids)

theorem foldl_domInter_bound (ids : List Nat) :
    ∀ (ts : List Nat) (d : List (List Nat)) (i : Nat) (l : List Nat),
      i ∈ ts → d.get? i = some l →
      ∀ l', (ts.foldl (fun d i => domInter d i ids) d).get? i = some l' →
        l' ⊆ ids := by
  intro ts
  induction ts with
  | nil => intro d i l h; simp at h
  | cons t rest ih =>
      intro d i l hmem hget l' hres
      simp only [List.foldl_cons] at hres
      by_cases hit : i = t
      · subst hit
        have h1 : (domInter d i ids).get? i = some (interL l ids) :=
          domInter_get_self hget
        by_cases hmem2 : i ∈ rest
        · exact ih _ i (interL l ids) hmem2 h1 l' hres
        · -- the tail never touches index i again … but it may: other
          -- indices only; use DomLe from the rest of the fold
          have hle := foldl_domInter_DomLe ids rest (domInter d i ids)
          have := hle.2 i l' (interL l ids) hres h1
          exact this.trans (interL_sub_right l ids)
      · rcases List.mem_cons.mp hmem with h | h
        · exact absurd h hit
        · exact ih _ i l h (by rw [domInter_get_other hit]; exact hget) l' hres

/-! ## Lemma layer: `foldSteps` -/

theorem foldSteps_cons_ok {α β : Type} {f : α → β → Except SolveErr α}
    {a r : α} {c : β} {l : List β}
    (h : foldSteps f a (c :: l) = .ok r) :
    ∃ a', f a c = .ok a' ∧ foldSteps f a' l = .ok r := by
  rw [foldSteps] at h
  cases hc : f a c with
  | error e => rw [hc] at h; exact absurd h (by simp)
  | ok a' => rw [hc] at h; exact ⟨a', rfl, h⟩

theorem foldSteps_split {α β : Type} {f : α → β → Except SolveErr α} :
    ∀ {l₁ : List β} {a r : α} {c : β} {l₂ : List β},
      foldSteps f a (l₁ ++ c :: l₂) = .ok r →
      ∃ a₁ a₂, foldSteps f a l₁ = .ok a₁ ∧ f a₁ c = .ok a₂ ∧
        foldSteps f a₂ l₂ = .ok r := by
  intro l₁
  induction l₁ with
  | nil =>
      intro a r c l₂ h
      rcases foldSteps_cons_ok (by simpa using h) with ⟨a', h1, h2⟩
      exact ⟨a, a', rfl, h1, h2⟩
  | cons b rest ih =>
      intro a r c l₂ h
      rcases foldSteps_cons_ok (by simpa using h) with ⟨a', h1, h2⟩
      rcases ih h2 with ⟨a₁, a₂, g1, g2, g3⟩
      refine ⟨a₁, a₂, ?_, g2, g3⟩
      rw [foldSteps, h1]
      exact g1

theorem foldSteps_DomLe {β : Type} {f : List (List Nat) → β → Except SolveErr (List (List Nat))}
    (hf : ∀ d c d', f d c = .ok d' → DomLe d' d) :
    ∀ {l : List β} {d r : List (List Nat)},
      foldSteps f d l = .ok r → DomLe r d := by
  intro l
  induction l with
  | nil =>
      intro d r h
      rw [foldSteps] at h
      cases h
      exact domLe_refl
  | cons c rest ih =>
      intro d r h
      rcases foldSteps_cons_ok h with ⟨d', h1, h2⟩
      exact domLe_trans (ih h2) (hf d c d' h1)

/-! ## Lemma layer: the cartesian product of domains -/

theorem cartProd_mem :
    ∀ {ls : List (List Nat)} {asn : List Nat}, asn ∈ cartProd ls →
      asn.length = ls.length ∧
        ∀ i l, ls.get? i = some l → ∃ v, asn.get? i = some v ∧ v ∈ l := by
  intro ls
  induction ls with
  | nil =>
      intro asn h
      simp only [cartProd, List.mem_singleton] at h
      subst h
      exact ⟨rfl, by intro i l h; simp at h⟩
  | cons l rest ih =>
      intro asn h
      simp only [cartProd, List.mem_flatMap, List.mem_map] at h
      rcases h with ⟨v, hv, t, ht, rfl⟩
      rcases ih ht with ⟨hlen, hall⟩
      refine ⟨by simp [hlen], ?_⟩
      intro i li hli
      cases i with
      | zero =>
          rw [List.get?_cons_zero] at hli
          cases hli
          exact ⟨v, rfl, hv⟩
      | succ m =>
          rw [List.get?_cons_succ] at hli
          rcases hall m li hli with ⟨w, hw1, hw2⟩
          exact ⟨w, by simpa using hw1, hw2⟩

theorem cartProd_nil_of_empty {ls : List (List Nat)} {i : Nat}
    (h : ls.get? i = some []) : cartProd ls = [] := by
  rw [List.eq_nil_iff_forall_not_mem]
  intro asn hasn
  rcases (cartProd_mem hasn).2 i [] h with ⟨v, _, hv⟩
  simp at hv

/-! ## Lemma layer: the engine -/

theorem pickOpt_mem {cands : List (List Nat)} {score : List Nat → Int}
    {maxi : Bool} {s : List Nat} (h : pickOpt cands score maxi = some s) :
    s ∈ cands := by
  rw [pickOpt] at h
  have aux : ∀ (l : List (List Nat)) (acc : Option (List Nat)),
      l.foldl (fun acc c =>
        match acc with
        | none => some c
        | some b =>
            if (if maxi then score b < score c else score c < score b) then some c
            else acc) acc = some s → acc = some s ∨ s ∈ l := by
    intro l
    induction l with
    | nil => intro acc h; exact Or.inl h
    | cons c rest ih =>
        intro acc h
        rw [List.foldl_cons] at h
        rcases ih _ h with h1 | h1
        · cases acc with
          | none =>
              simp only at h1
              cases h1
              exact Or.inr (List.mem_cons_self _ _)
          | some b =>
              simp only at h1
              by_cases hc : (if maxi then score b < score c else score c < score b)
              · rw [if_pos hc] at h1
                cases h1
                exact Or.inr (List.mem_cons_self _ _)
              · rw [if_neg hc] at h1
                exact Or.inl h1
        · exact Or.inr (List.mem_cons_of_mem _ h1)
  rcases aux cands none h with h1 | h1
  · exact absurd h1 (by simp)
  · exact h1

/-! ## Lemma layer: the domain computation only shrinks domains -/

theorem genericStep_DomLe (salle : Salle) (seats : List Seat) (c : Contrainte)
    (d : List (List Nat)) (pr : Nat × Eleve) (d' : List (List Nat))
    (h : genericStep salle seats c d pr = .ok d') : DomLe d' d := by
  rw [genericStep] at h
  cases hp : c.placesAutorisees pr.2 salle with
  | none => rw [hp] at h; cases h; exact domLe_refl
  | some poss =>
      rw [hp] at h
      simp only [bind, Except.bind] at h
      cases hm : poss.mapM (fun p => seatIndexOf p seats) with
      | error e => rw [hm] at h; exact absurd h (by simp)
      | ok ids =>
          rw [hm] at h
          cases h
          exact domInter_DomLe d pr.1 ids

theorem domainStep_DomLe (cfg : SolverCfg) (salle : Salle)
    (eleves : List Eleve) (seats : List Seat) (allIds : List Nat)
    (d : List (List Nat)) (c : Contrainte) (d' : List (List Nat))
    (h : domainStep cfg salle eleves seats allIds d c = .ok d') : DomLe d' d := by
  cases c <;> simp only [domainStep] at h
  case premieresRangees em k m =>
    cases h
    exact foldl_domInter_DomLe _ _ _
  case dernieresRangees em k my m =>
    cases h
    exact foldl_domInter_DomLe _ _ _
  all_goals
    exact foldSteps_DomLe
      (fun d c d' hh => genericStep_DomLe salle seats _ d _ d' hh) h

theorem applyExactSeats_DomLe {cs : List Contrainte} {eleves : List Eleve}
    {seats : List Seat} {d r : List (List Nat)}
    (h : applyExactSeats cs eleves seats d = .ok r) : DomLe r d := by
  rw [applyExactSeats] at h
  refine foldSteps_DomLe ?_ h
  intro d c d' hc
  cases c with
  | exactementIci em p =>
      simp only [bind, Except.bind] at hc
      cases hm : seatIndexOf p seats with
      | error e => rw [hm] at hc; exact absurd hc (by simp)
      | ok ip =>
          rw [hm] at hc
          cases hc
          exact domInter_DomLe d _ _
  | _ =>
      all_goals (cases hc; exact domLe_refl)

theorem computeAllowedDomains_DomLe {cfg : SolverCfg} {salle : Salle}
    {eleves : List Eleve} {cs : List Contrainte} {seats : List Seat}
    {r : List (List Nat)}
    (h : computeAllowedDomains cfg salle eleves cs seats = .ok r) :
    DomLe r (eleves.map (fun _ => seats.map Seat.idx)) := by
  rw [computeAllowedDomains] at h
  exact foldSteps_DomLe
    (fun d c d' hh => domainStep_DomLe cfg salle eleves seats _ d c d' hh) h

/-- Every surviving seat id is one of the enumerated ids (from `DomLe`
against the initial all-seats table). -/
theorem domain_entry_sub_allIds {cfg : SolverCfg} {salle : Salle}
    {eleves : List Eleve} {cs : List Contrainte} {seats : List Seat}
    {r : List (List Nat)} {i : Nat} {l : List Nat}
    (h : computeAllowedDomains cfg salle eleves cs seats = .ok r)
    (hi : r.get? i = some l) : l ⊆ seats.map Seat.idx := by
  have hle := computeAllowedDomains_DomLe h
  have hlen : i < eleves.length := by
    have h1 : i < r.length := (List.get?_eq_some.mp hi).1
    have h2 := hle.1
    simp only [List.length_map] at h2
    omega
  have hinit : (eleves.map (fun _ => seats.map Seat.idx)).get? i
      = some (seats.map Seat.idx) := by
    rw [List.get?_map]
    cases hm : eleves.get? i with
    | none => exact absurd (List.get?_eq_none.mp hm) (by omega)
    | some e => rfl
  exact hle.2 i l _ hi hinit

theorem computeAllowedDomains_length {cfg : SolverCfg} {salle : Salle}
    {eleves : List Eleve} {cs : List Contrainte} {seats : List Seat}
    {r : List (List Nat)}
    (h : computeAllowedDomains cfg salle eleves cs seats = .ok r) :
    r.length = eleves.length := by
  have := (computeAllowedDomains_DomLe h).1
  simpa using this

theorem get?_some_of_lt {α : Type} {l : List α} {i : Nat} (h : i < l.length) :
    ∃ x, l.get? i = some x := by
  cases hm : l.get? i with
  | none => exact absurd (List.get?_eq_none.mp hm) (by omega)
  | some x => exact ⟨x, rfl⟩

theorem mapM_ok_sources {f : Position → Except SolveErr Nat} :
    ∀ {poss : List Position} {ids : List Nat},
      poss.mapM f = .ok ids → ∀ v ∈ ids, ∃ p ∈ poss, f p = .ok v := by
  intro poss
  induction poss with
  | nil =>
      intro ids h v hv
      simp only [List.mapM_nil, pure, Except.pure] at h
      cases h
      simp at hv
  | cons p rest ih =>
      intro ids h v hv
      simp only [List.mapM_cons, bind, Except.bind, pure, Except.pure] at h
      cases hp : f p with
      | error e => rw [hp] at h; exact absurd h (by simp)
      | ok v0 =>
          rw [hp] at h
          cases hr : rest.mapM f with
          | error e => rw [hr] at h; exact absurd h (by simp)
          | ok vs =>
              rw [hr] at h
              cases h
              rcases List.mem_cons.mp hv with rfl | hv2
              · exact ⟨p, List.mem_cons_self _ _, hp⟩
              · rcases ih hr v hv2 with ⟨q, hq1, hq2⟩
                exact ⟨q, List.mem_cons_of_mem _ hq1, hq2⟩

theorem mapM_singleton_ok {f : Position → Except SolveErr Nat} {p : Position}
    {ids : List Nat} (h : [p].mapM f = .ok ids) :
    ∃ ip, f p = .ok ip ∧ ids = [ip] := by
  simp only [List.mapM_cons, List.mapM_nil, bind, Except.bind, pure, Except.pure] at h
  cases hp : f p with
  | error e => rw [hp] at h; exact absurd h (by simp)
  | ok ip =>
      rw [hp] at h
      cases h
      exact ⟨ip, rfl, rfl⟩

/-- The generic `places_autorisees` fold bounds the touched student by
the resolved seat ids of the filter. -/
theorem genericFold_bound {salle : Salle} {seats : List Seat} {c : Contrainte} :
    ∀ {pairs : List (Nat × Eleve)} {d d' : List (List Nat)},
      foldSteps (genericStep salle seats c) d pairs = .ok d' →
      ∀ {i : Nat} {e : Eleve}, (i, e) ∈ pairs →
      ∀ {poss : List Position}, c.placesAutorisees e salle = some poss →
      i < d.length →
      ∃ ids, poss.mapM (fun p => seatIndexOf p seats) = .ok ids ∧
        ∀ l', d'.get? i = some l' → l' ⊆ ids := by
  intro pairs d d' hfold i e hmem poss hposs hlen
  rcases List.append_of_mem hmem with ⟨p1, p2, rfl⟩
  rcases foldSteps_split hfold with ⟨d1, d2, h1, hstep, h2⟩
  have hd1 : DomLe d1 d :=
    foldSteps_DomLe (fun d c d' hh => genericStep_DomLe salle seats _ d _ d' hh) h1
  have hlen1 : i < d1.length := by
    have := hd1.1
    omega
  rcases get?_some_of_lt hlen1 with ⟨li, hli⟩
  rw [genericStep, hposs] at hstep
  simp only [bind, Except.bind] at hstep
  cases hm : poss.mapM (fun p => seatIndexOf p seats) with
  | error e2 => rw [hm] at hstep; exact absurd hstep (by simp)
  | ok ids =>
      rw [hm] at hstep
      cases hstep
      refine ⟨ids, rfl, ?_⟩
      intro l' hl'
      have hd2 : DomLe d' (domInter d1 i ids) :=
        foldSteps_DomLe (fun d c d' hh => genericStep_DomLe salle seats _ d _ d' hh) h2
      have hmid : (domInter d1 i ids).get? i = some (interL li ids) :=
        domInter_get_self hli
      exact (hd2.2 i l' _ hl' hmid).trans (interL_sub_right li ids)

/-- `targets` of a front-rows constraint. -/
theorem targetsOf_front (eleves : List Eleve) (em : Eleve) (k : Int) (m : String) :
    targetsOf eleves (.premieresRangees em k m) = [eleves.indexOf em] := by
  rfl

/-- A front-rows constraint anywhere in the list bounds the final
domain of its student by the front seat-id set. -/
theorem compute_front_bound {cfg : SolverCfg} {salle : Salle}
    {eleves : List Eleve} {cs : List Contrainte} {seats : List Seat}
    {r : List (List Nat)} {em : Eleve} {k : Int} {m : String}
    (h : computeAllowedDomains cfg salle eleves cs seats = .ok r)
    (hc : Contrainte.premieresRangees em k m ∈ cs)
    (hmem : em ∈ eleves)
    {l : List Nat} (hl : r.get? (eleves.indexOf em) = some l) :
    l ⊆ idsAllowedFrontBack cfg seats (seats.map Seat.idx) true k m := by
  rcases List.append_of_mem hc with ⟨l1, l2, hcs⟩
  subst hcs
  rw [computeAllowedDomains] at h
  rcases foldSteps_split h with ⟨d1, d2, h1, hstep, h2⟩
  have hd1 : DomLe d1 (eleves.map (fun _ => seats.map Seat.idx)) :=
    foldSteps_DomLe
      (fun d c d' hh => domainStep_DomLe cfg salle eleves seats _ d c d' hh) h1
  have hie : eleves.indexOf em < eleves.length := List.indexOf_lt_length.mpr hmem
  have hlen1 : eleves.indexOf em < d1.length := by
    have := hd1.1
    simp only [List.length_map] at this
    omega
  rcases get?_some_of_lt hlen1 with ⟨li, hli⟩
  simp only [domainStep, targetsOf_front] at hstep
  cases hstep
  have hd2 : DomLe r _ :=
    foldSteps_DomLe
      (fun d c d' hh => domainStep_DomLe cfg salle eleves seats _ d c d' hh) h2
  have hbound := foldl_domInter_bound
    (idsAllowedFrontBack cfg seats (seats.map Seat.idx) true k m)
    [eleves.indexOf em] d1 (eleves.indexOf em) li
    (List.mem_singleton.mpr rfl) hli
  have hlen2 : eleves.indexOf em
      < ([eleves.indexOf em].foldl
          (fun d i => domInter d i (idsAllowedFrontBack cfg seats (seats.map Seat.idx) true k m)) d1).length := by
    have := (foldl_domInter_DomLe
      (idsAllowedFrontBack cfg seats (seats.map Seat.idx) true k m)
      [eleves.indexOf em] d1).1
    omega
  rcases get?_some_of_lt hlen2 with ⟨l2e, hl2e⟩
  have hsub2 := hbound l2e hl2e
  exact (hd2.2 _ l l2e hl hl2e).trans hsub2

/-! ## Lemma layer: reconstruction -/

theorem find?_unique {α : Type} {p : α → Bool} :
    ∀ {l : List α} {a : α}, a ∈ l → p a = true →
      (∀ b ∈ l, p b = true → b = a) → l.find? p = some a := by
  intro l
  induction l with
  | nil => intro a h; simp at h
  | cons b rest ih =>
      intro a hmem hpa huniq
      by_cases hb : p b = true
      · have : b = a := huniq b (List.mem_cons_self _ _) hb
        subst this
        simp [List.find?, hb]
      · have hmem2 : a ∈ rest := by
          rcases List.mem_cons.mp hmem with rfl | h
          · exact absurd hpa hb
          · exact h
        have := ih hmem2 hpa (fun c hc hp => huniq c (List.mem_cons_of_mem _ hc) hp)
        simp only [List.find?]
        rw [Bool.eq_false_iff.mpr hb]
        exact this

theorem xOf_true_iff {asn : List Nat} {e i : Nat} :
    xOf asn e i = true ↔ asn.get? e = some i := by
  rw [xOf]
  exact decide_eq_true_iff

theorem firstSeatOf_eq {asn : List Nat} {nS e v : Nat}
    (hv : asn.get? e = some v) (hvS : v < nS) :
    firstSeatOf asn nS e = some v := by
  rw [firstSeatOf]
  refine find?_unique (List.mem_range.mpr hvS) ?_ ?_
  · rw [xOf_true_iff]; exact hv
  · intro b _ hb
    have := xOf_true_iff.mp hb
    rw [hv] at this
    exact (Option.some.inj this).symm

theorem reconstructAux_sound {seats : List Seat} {asn : List Nat} :
    ∀ {es : List Eleve} {idx : Nat} {aff : Affectation},
      reconstructAux seats asn es idx = some aff →
      aff.map Prod.fst = es ∧
      aff.length = es.length ∧
      ∀ j, j < es.length → ∃ i st e,
        firstSeatOf asn seats.length (idx + j) = some i ∧
        seats.get? i = some st ∧
        es.get? j = some e ∧
        aff.get? j = some (e, seatPos st) := by
  intro es
  induction es with
  | nil =>
      intro idx aff h
      rw [reconstructAux] at h
      cases h
      exact ⟨rfl, rfl, fun j hj => absurd hj (by simp)⟩
  | cons e rest ih =>
      intro idx aff h
      rw [reconstructAux] at h
      split at h
      · exact absurd h (by simp)
      next i hf =>
        split at h
        · exact absurd h (by simp)
        next st hs =>
          split at h
          · exact absurd h (by simp)
          next tail hr =>
            have haff := Option.some.inj h
            subst haff
            rcases ih hr with ⟨ih1, ih2, ih3⟩
            refine ⟨by simp [ih1], by simp [ih2], ?_⟩
            intro j hj
            cases j with
            | zero =>
                refine ⟨i, st, e, by simpa using hf, hs, rfl, rfl⟩
            | succ m =>
                have hm : m < rest.length := by simpa using hj
                rcases ih3 m hm with ⟨i2, st2, e2, g1, g2, g3, g4⟩
                refine ⟨i2, st2, e2, ?_, g2, by simpa using g3, by simpa using g4⟩
                have heq : idx + 1 + m = idx + (m + 1) := by omega
                rw [← heq]
                exact g1

/-! ## Lemma layer: extracting model facts from `hardSat` -/

theorem hardSat_rows {eleves : List Eleve} {seats : List Seat}
    {allowed : List (List Nat)} {cs : List Contrainte}
    {edges : List (Nat × Nat)} {asn : List Nat}
    (h : hardSat eleves seats allowed cs edges asn = true) :
    ∀ e, e < eleves.length → rowCount asn seats.length e = 1 := by
  rw [hardSat] at h
  simp only [Bool.and_eq_true] at h
  have := h.1.1.1.1.1.1.1.1.2
  intro e he
  have h2 := List.all_eq_true.mp this e (List.mem_range.mpr he)
  simpa using h2

theorem hardSat_cols {eleves : List Eleve} {seats : List Seat}
    {allowed : List (List Nat)} {cs : List Contrainte}
    {edges : List (Nat × Nat)} {asn : List Nat}
    (h : hardSat eleves seats allowed cs edges asn = true) :
    ∀ i, i < seats.length → colCount asn eleves.length i ≤ 1 := by
  rw [hardSat] at h
  simp only [Bool.and_eq_true] at h
  have := h.1.1.1.1.1.1.1.2
  intro i hi
  have h2 := List.all_eq_true.mp this i (List.mem_range.mpr hi)
  simpa using h2

theorem hardSat_videTable {eleves : List Eleve} {seats : List Seat}
    {allowed : List (List Nat)} {cs : List Contrainte}
    {edges : List (Nat × Nat)} {asn : List Nat}
    (h : hardSat eleves seats allowed cs edges asn = true) :
    ∀ c ∈ cs, ∀ em, c = Contrainte.voisinVide em →
      ∀ kv ∈ seatsByTable seats,
        (kv.2.map (colCount asn eleves.length)).sum +
          (if kv.2.any (fun i => xOf asn (eleves.indexOf em) i) then 1 else 0)
          ≤ kv.2.length := by
  rw [hardSat] at h
  simp only [Bool.and_eq_true] at h
  have hall := h.2
  intro c hc em hcem kv hkv
  have h2 := List.all_eq_true.mp hall c hc
  subst hcem
  simp only at h2
  have h3 := List.all_eq_true.mp h2 kv hkv
  simpa using h3

/-! ## Lemma layer: inverting the driver -/

theorem solvePasses_none_of_feas_nil (cfg : SolverCfg) (salle : Salle)
    (eleves : List Eleve) (cs : List Contrainte) (seats : List Seat)
    (allowed : List (List Nat)) (edges : List (Nat × Nat))
    (h : feasibleAsns eleves seats allowed cs edges = []) :
    solvePasses cfg salle eleves cs seats allowed edges = .ok none := by
  rw [solvePasses, h]
  simp [pickOpt]

theorem solvePass34_some_inv {cfg : SolverCfg} {salle : Salle}
    {eleves : List Eleve} {cs : List Contrainte} {seats : List Seat}
    {feas : List (List Nat)} {freeze3 : List Nat → Bool} {aff : Affectation}
    (h : solvePass34 cfg salle eleves cs seats feas freeze3 = .ok (some aff)) :
    ∃ asn ∈ feas, reconstructAff eleves seats asn = some aff := by
  rw [solvePass34] at h
  split at h
  · exact absurd h (by simp)
  next s3 hs3 =>
    have hs3mem : s3 ∈ feas := (List.mem_filter.mp (pickOpt_mem hs3)).1
    split at h
    next r hr =>
      -- pass 4 returned r, and h : .ok r = .ok (some aff)
      have hraff : r = some aff := Except.ok.inj h
      subst hraff
      rw [pass4Try] at hr
      split at hr
      · -- tiebreak active
        split at hr
        · exact absurd hr (by simp)
        next s4 hs4 =>
          have hs4mem : s4 ∈ feas := (List.mem_filter.mp (pickOpt_mem hs4)).1
          split at hr
          · -- reconstruction failed: p4 = some none, contradiction
            have := Option.some.inj hr
            exact absurd this (by simp)
          next aff4 haff4 =>
            split at hr
            · have h2 := Option.some.inj hr
              have h3 := Option.some.inj h2
              subst h3
              exact ⟨s4, hs4mem, haff4⟩
            · exact absurd hr (by simp)
      · exact absurd hr (by simp)
    next hr =>
      -- fall through to the pass-3 reconstruction
      rw [reconstructValide] at h
      split at h
      · exact absurd h (by simp)
      next aff3 haff3 =>
        split at h
        · have h2 := Except.ok.inj h
          have h3 := Option.some.inj h2
          subst h3
          exact ⟨s3, hs3mem, haff3⟩
        · exact absurd h (by simp)

theorem solvePasses_some_inv {cfg : SolverCfg} {salle : Salle}
    {eleves : List Eleve} {cs : List Contrainte} {seats : List Seat}
    {allowed : List (List Nat)} {edges : List (Nat × Nat)} {aff : Affectation}
    (h : solvePasses cfg salle eleves cs seats allowed edges = .ok (some aff)) :
    ∃ asn ∈ feasibleAsns eleves seats allowed cs edges,
      reconstructAff eleves seats asn = some aff := by
  rw [solvePasses] at h
  split at h
  · exact absurd h (by simp)
  next s1 hs1 =>
    split at h
    · -- both preferences active: pass 2 runs
      split at h
      · exact absurd h (by simp)
      next s2 hs2 => exact solvePass34_some_inv h
    · exact solvePass34_some_inv h

theorem two_mem_le_length {l : List Nat} (hnd : l.Nodup) {a b : Nat}
    (ha : a ∈ l) (hb : b ∈ l) (hab : a ≠ b) : 2 ≤ l.length := by
  classical
  have hsub : ({a, b} : Finset Nat) ⊆ l.toFinset := by
    intro v hv
    rcases Finset.mem_insert.mp hv with rfl | hv
    · exact List.mem_toFinset.mpr ha
    · rw [Finset.mem_singleton] at hv
      subst hv
      exact List.mem_toFinset.mpr hb
  have h1 := Finset.card_le_card hsub
  rw [Finset.card_pair hab] at h1
  rw [List.toFinset_card_of_nodup hnd] at h1
  exact h1

/-- Inversion of `resoudre` on success: the returned assignment is the
reconstruction of a model-feasible solution. -/
theorem resoudre_some_inv {cfg : SolverCfg} {salle : Salle}
    {eleves : List Eleve} {cs : List Contrainte} {aff : Affectation}
    (h : resoudre cfg salle eleves cs = .ok (some aff)) :
    ∃ d0 allowed asn,
      computeAllowedDomains cfg salle eleves cs
        (enumerateSeats salle cfg.geom cfg.tableOffsets) = .ok d0 ∧
      applyExactSeats cs eleves
        (enumerateSeats salle cfg.geom cfg.tableOffsets) d0 = .ok allowed ∧
      asn ∈ feasibleAsns eleves (enumerateSeats salle cfg.geom cfg.tableOffsets)
        allowed cs
        (adjacentEdgesSameTable (enumerateSeats salle cfg.geom cfg.tableOffsets)) ∧
      reconstructAff eleves (enumerateSeats salle cfg.geom cfg.tableOffsets) asn
        = some aff := by
  rw [resoudre] at h
  split at h
  · exact absurd h (by simp)
  · dsimp only [] at h
    split at h
    · exact absurd h (by simp)
    next d0 hd0 =>
      split at h
      · exact absurd h (by simp)
      next allowed hall =>
        rcases solvePasses_some_inv h with ⟨asn, hmem, hrec⟩
        exact ⟨d0, allowed, asn, hd0, hall, hmem, hrec⟩

/-- The seat chosen for each student by the reconstruction is the one
true entry of its row. -/
theorem feasible_asn_get {eleves : List Eleve} {seats : List Seat}
    {allowed : List (List Nat)} {cs : List Contrainte}
    {edges : List (Nat × Nat)} {asn : List Nat}
    (hmem : asn ∈ feasibleAsns eleves seats allowed cs edges) :
    asn ∈ cartProd allowed ∧
      hardSat eleves seats allowed cs edges asn = true := by
  have := List.mem_filter.mp hmem
  exact ⟨this.1, this.2⟩

/-! ## Lemma layer: error shapes of the pre-flight stages -/

/-- An erroring fold has an erroring step. -/
theorem foldSteps_error_source {α β : Type} {f : α → β → Except SolveErr α} :
    ∀ {l : List β} {a : α} {er : SolveErr},
      foldSteps f a l = .error er → ∃ a2 c, c ∈ l ∧ f a2 c = .error er := by
  intro l
  induction l with
  | nil =>
      intro a er h
      simp only [foldSteps] at h
      exact absurd h (by simp)
  | cons c rest ih =>
      intro a er h
      simp only [foldSteps] at h
      cases hc : f a c with
      | error e0 =>
          rw [hc] at h
          cases h
          exact ⟨a, c, List.mem_cons_self _ _, hc⟩
      | ok a1 =>
          rw [hc] at h
          rcases ih h with ⟨a2, c2, hm, hf⟩
          exact ⟨a2, c2, List.mem_cons_of_mem _ hm, hf⟩

/-- In a succeeding fold, every step succeeded on some intermediate
state. -/
theorem foldSteps_ok_steps {α β : Type} {f : α → β → Except SolveErr α} :
    ∀ {l : List β} {a b : α},
      foldSteps f a l = .ok b → ∀ c ∈ l, ∃ a2 b2, f a2 c = .ok b2 := by
  intro l
  induction l with
  | nil =>
      intro a b _ c hc
      simp at hc
  | cons c0 rest ih =>
      intro a b h c hc
      simp only [foldSteps] at h
      cases hc0 : f a c0 with
      | error e => rw [hc0] at h; exact absurd h (by simp)
      | ok a1 =>
          rw [hc0] at h
          rcases List.mem_cons.mp hc with rfl | hm
          · exact ⟨a, a1, hc0⟩
          · exact ih h c hm

/-- The only error `_seat_index_of` raises is its `KeyError`. -/
theorem seatIndexOf_error_shape {p : Position} {seats : List Seat}
    {er : SolveErr} (h : seatIndexOf p seats = .error er) :
    er = .keyError "Position inconnue dans l inventaire des sieges" := by
  rw [seatIndexOf] at h
  cases hf : seats.find? (fun st => st.x = p.x && st.y = p.y && st.s = p.siege) with
  | none => rw [hf] at h; exact (Except.error.inj h).symm
  | some st => rw [hf] at h; exact absurd h (by simp)

/-- An erroring `mapM` has an erroring element. -/
theorem mapM_error_source {f : Position → Except SolveErr Nat} :
    ∀ {poss : List Position} {er : SolveErr},
      poss.mapM f = .error er → ∃ p ∈ poss, f p = .error er := by
  intro poss
  induction poss with
  | nil =>
      intro er h
      simp only [List.mapM_nil, pure, Except.pure] at h
      exact absurd h (by simp)
  | cons p rest ih =>
      intro er h
      simp only [List.mapM_cons, bind, Except.bind, pure, Except.pure] at h
      cases hp : f p with
      | error e0 =>
          rw [hp] at h
          cases h
          exact ⟨p, List.mem_cons_self _ _, hp⟩
      | ok v =>
          rw [hp] at h
          cases hr : rest.mapM f with
          | error e1 =>
              rw [hr] at h
              cases h
              rcases ih hr with ⟨q, hq, hfq⟩
              exact ⟨q, List.mem_cons_of_mem _ hq, hfq⟩
          | ok vs => rw [hr] at h; exact absurd h (by simp)

/-- Every error of the generic domain step is the seat-lookup
`KeyError`. -/
theorem genericStep_error_shape {salle : Salle} {seats : List Seat}
    {c : Contrainte} {doms : List (List Nat)} {pair : Nat × Eleve}
    {er : SolveErr} (h : genericStep salle seats c doms pair = .error er) :
    er = .keyError "Position inconnue dans l inventaire des sieges" := by
  rw [genericStep] at h
  cases hpa : c.placesAutorisees pair.2 salle with
  | none => rw [hpa] at h; exact absurd h (by simp)
  | some poss =>
      rw [hpa] at h
      simp only [bind, Except.bind] at h
      cases hm : poss.mapM (fun p => seatIndexOf p seats) with
      | error e0 =>
          rw [hm] at h
          cases h
          rcases mapM_error_source hm with ⟨q, _, hq⟩
          exact seatIndexOf_error_shape hq
      | ok ids => rw [hm] at h; exact absurd h (by simp)

/-- Every error of a `_compute_allowed_domains` step is the seat-lookup
`KeyError`. -/
theorem domainStep_error_shape {cfg : SolverCfg} {salle : Salle}
    {eleves : List Eleve} {seats : List Seat} {allIds : List Nat}
    {doms : List (List Nat)} {c : Contrainte} {er : SolveErr}
    (h : domainStep cfg salle eleves seats allIds doms c = .error er) :
    er = .keyError "Position inconnue dans l inventaire des sieges" := by
  cases c
  case premieresRangees e k m =>
    simp only [domainStep] at h
    exact absurd h (by simp)
  case dernieresRangees e k my m =>
    simp only [domainStep] at h
    exact absurd h (by simp)
  all_goals simp only [domainStep, Contrainte.implique] at h
  all_goals rcases foldSteps_error_source h with ⟨a2, c2, _, hstep⟩
  all_goals exact genericStep_error_shape hstep

/-- Every error of `_compute_allowed_domains` is the seat-lookup
`KeyError`. -/
theorem computeAllowedDomains_error_shape {cfg : SolverCfg} {salle : Salle}
    {eleves : List Eleve} {cs : List Contrainte} {seats : List Seat}
    {er : SolveErr}
    (h : computeAllowedDomains cfg salle eleves cs seats = .error er) :
    er = .keyError "Position inconnue dans l inventaire des sieges" := by
  rw [computeAllowedDomains] at h
  rcases foldSteps_error_source h with ⟨a2, c2, _, hstep⟩
  exact domainStep_error_shape hstep

/-- Every error of `_apply_exact_seats` is the seat-lookup
`KeyError`. -/
theorem applyExactSeats_error_shape {cs : List Contrainte}
    {eleves : List Eleve} {seats : List Seat} {doms : List (List Nat)}
    {er : SolveErr}
    (h : applyExactSeats cs eleves seats doms = .error er) :
    er = .keyError "Position inconnue dans l inventaire des sieges" := by
  rw [applyExactSeats] at h
  rcases foldSteps_error_source h with ⟨d2, c2, hcm, hstep⟩
  clear hcm
  cases c2 <;> simp only [bind, Except.bind] at hstep
  case exactementIci em p =>
    cases hsi : seatIndexOf p seats with
    | error e0 =>
        rw [hsi] at hstep
        cases hstep
        exact seatIndexOf_error_shape hsi
    | ok sid => rw [hsi] at hstep; exact absurd hstep (by simp)
  all_goals exact absurd hstep (by simp)

/-- The passes never raise: infeasibility is `ok none`. -/
theorem reconstructValide_ok (cfg : SolverCfg) (salle : Salle)
    (eleves : List Eleve) (cs : List Contrainte) (seats : List Seat)
    (asn : List Nat) :
    ∃ r, reconstructValide cfg salle eleves cs seats asn = .ok r := by
  rw [reconstructValide]
  split
  · exact ⟨none, rfl⟩
  · split
    · exact ⟨_, rfl⟩
    · exact ⟨none, rfl⟩

theorem solvePass34_ok (cfg : SolverCfg) (salle : Salle)
    (eleves : List Eleve) (cs : List Contrainte) (seats : List Seat)
    (feas : List (List Nat)) (freeze3 : List Nat → Bool) :
    ∃ r, solvePass34 cfg salle eleves cs seats feas freeze3 = .ok r := by
  rw [solvePass34]
  split
  · exact ⟨none, rfl⟩
  · split
    · exact ⟨_, rfl⟩
    · exact reconstructValide_ok _ _ _ _ _ _

theorem solvePasses_ok (cfg : SolverCfg) (salle : Salle)
    (eleves : List Eleve) (cs : List Contrainte) (seats : List Seat)
    (allowed : List (List Nat)) (edges : List (Nat × Nat)) :
    ∃ r, solvePasses cfg salle eleves cs seats allowed edges = .ok r := by
  rw [solvePasses]
  dsimp only []
  split
  · exact ⟨none, rfl⟩
  · split
    · exact ⟨none, rfl⟩
    · exact solvePass34_ok _ _ _ _ _ _ _

/-! ## Lemma layer: exact seats against forbidden seats -/

/-- `enumerate(l)` membership from an index lookup. -/
theorem mem_zip_range {α : Type} :
    ∀ (l : List α) (a : Nat) (x : α), l.get? a = some x →
      (a, x) ∈ (List.range l.length).zip l := by
  intro l
  induction l with
  | nil =>
      intro a x hx
      simp at hx
  | cons b rest ih =>
      intro a x hx
      rw [List.length_cons, List.range_succ_eq_map]
      cases a with
      | zero =>
          rw [List.get?_cons_zero] at hx
          cases hx
          rw [List.zip_cons_cons]
          exact List.mem_cons_self _ _
      | succ m =>
          rw [List.get?_cons_succ] at hx
          have hmem := ih m x hx
          rw [List.zip_cons_cons]
          refine List.mem_cons_of_mem _ ?_
          rw [List.zip_map_left]
          exact List.mem_map.mpr ⟨(m, x), hmem, rfl⟩

/-- The exact-seat pass pins the domain of an exactly-seated student
inside the singleton of its resolved seat id. -/
theorem applyExactSeats_bound {cs : List Contrainte} {eleves : List Eleve}
    {seats : List Seat} {d d' : List (List Nat)} {e : Eleve} {p : Position}
    (h : applyExactSeats cs eleves seats d = .ok d')
    (hc : Contrainte.exactementIci e p ∈ cs)
    (hlen : eleves.indexOf e < d.length) :
    ∃ sid, seatIndexOf p seats = .ok sid ∧
      ∀ l', d'.get? (eleves.indexOf e) = some l' → l' ⊆ [sid] := by
  rcases List.append_of_mem hc with ⟨c1, c2, rfl⟩
  rw [applyExactSeats] at h
  rcases foldSteps_split h with ⟨d1, d2, h1, hstep, h2⟩
  have h1A : applyExactSeats c1 eleves seats d = .ok d1 := by
    rw [applyExactSeats]
    exact h1
  have hd1 : DomLe d1 d := applyExactSeats_DomLe h1A
  have hlen1 : eleves.indexOf e < d1.length := by
    have := hd1.1
    omega
  rcases get?_some_of_lt hlen1 with ⟨li, hli⟩
  simp only [bind, Except.bind] at hstep
  cases hsi : seatIndexOf p seats with
  | error er => rw [hsi] at hstep; exact absurd hstep (by simp)
  | ok sid =>
      rw [hsi] at hstep
      cases hstep
      refine ⟨sid, rfl, ?_⟩
      intro l' hl'
      have h2A : applyExactSeats c2 eleves seats
          (domInter d1 (eleves.indexOf e) [sid]) = .ok d' := by
        rw [applyExactSeats]
        exact h2
      have hd2 : DomLe d' (domInter d1 (eleves.indexOf e) [sid]) :=
        applyExactSeats_DomLe h2A
      have hmid : (domInter d1 (eleves.indexOf e) [sid]).get?
          (eleves.indexOf e) = some (interL li [sid]) :=
        domInter_get_self hli
      exact (hd2.2 _ l' _ hl' hmid).trans (interL_sub_right li [sid])

/-- A `ForbidSeat` constraint removes the banned seat id from every
student's computed domain. -/
theorem compute_siegeVide_excludes {cfg : SolverCfg} {salle : Salle}
    {eleves : List Eleve} {cs : List Contrainte} {r : List (List Nat)}
    {x y s : Int} {a : Nat} {sid : Nat} {l : List Nat}
    (h : computeAllowedDomains cfg salle eleves cs
      (enumerateSeats salle cfg.geom cfg.tableOffsets) = .ok r)
    (hc : Contrainte.siegeVide x y s ∈ cs)
    (ha : a < eleves.length)
    (hsid : seatIndexOf ⟨x, y, s⟩
      (enumerateSeats salle cfg.geom cfg.tableOffsets) = .ok sid)
    (hl : r.get? a = some l) :
    sid ∉ l := by
  intro hmemv
  rcases List.append_of_mem hc with ⟨c1, c2, rfl⟩
  rw [computeAllowedDomains] at h
  rcases foldSteps_split h with ⟨d1, d2, h1, hstep, h2⟩
  have hd1 : DomLe d1 (eleves.map (fun _ =>
      (enumerateSeats salle cfg.geom cfg.tableOffsets).map Seat.idx)) :=
    foldSteps_DomLe
      (fun d c d' hh => domainStep_DomLe cfg salle eleves _ _ d c d' hh) h1
  have hlen1 : a < d1.length := by
    have := hd1.1
    simp only [List.length_map] at this
    omega
  rcases get?_some_of_lt ha with ⟨e, he⟩
  have hpair := mem_zip_range eleves a e he
  simp only [domainStep, Contrainte.implique] at hstep
  have hpl : (Contrainte.siegeVide x y s).placesAutorisees e salle
      = some (salle.toutesLesPlaces.filter
          (fun q => !(q.x = x && q.y = y && q.siege = s))) := rfl
  rcases genericFold_bound hstep hpair hpl hlen1 with ⟨ids, hmapm, hbound⟩
  have hd2le : DomLe d2 d1 :=
    foldSteps_DomLe (fun d c d' hh => genericStep_DomLe salle _ _ d _ d' hh)
      hstep
  have hlen2 : a < d2.length := by
    have := hd2le.1
    omega
  rcases get?_some_of_lt hlen2 with ⟨l2, hl2⟩
  have hrle : DomLe r d2 :=
    foldSteps_DomLe
      (fun d c d' hh => domainStep_DomLe cfg salle eleves _ _ d c d' hh) h2
  have hsubl : l ⊆ l2 := hrle.2 a l l2 hl hl2
  have hsidin : sid ∈ ids := hbound l2 hl2 (hsubl hmemv)
  rcases mapM_ok_sources hmapm sid hsidin with ⟨q, hqmem, hqsid⟩
  rcases seatIndexOf_ok_spec hqsid with ⟨st, hstmem, hstpos, hstidx⟩
  rcases seatIndexOf_ok_spec hsid with ⟨st2, hst2mem, hst2pos, hst2idx⟩
  have hsame : st = st2 := by
    have g1 := mem_seats_get hstmem
    have g2 := mem_seats_get hst2mem
    rw [hstidx] at g1
    rw [hst2idx] at g2
    rw [g1] at g2
    exact Option.some.inj g2
  have hq : q = (⟨x, y, s⟩ : Position) := by
    rw [← hstpos, hsame, hst2pos]
  have hpred := (List.mem_filter.mp hqmem).2
  rw [hq] at hpred
  simp at hpred

/-- With no visual row data and no geometry, the front-rows seat-id set
is the grid fallback: seats whose `y` lies in the first `k` values of
the sorted distinct existing rows. -/
theorem mem_front_ids_plain {cfg : SolverCfg} {seats : List Seat}
    {allIds : List Nat} {k : Int} {m : String} {i : Nat}
    (h1 : cfg.rowMapUI = none) (h2 : cfg.rowOrderUI = none)
    (h3 : cfg.geom = none)
    (hi : i ∈ idsAllowedFrontBack cfg seats allIds true k m) :
    ∃ st ∈ seats, st.idx = i ∧
      st.y ∈ (insSort ((seats.map Seat.y).dedup)).take k.toNat := by
  simp only [idsAllowedFrontBack, h1, h2, h3, if_true] at hi
  simp only [List.mem_map, List.mem_filter] at hi
  rcases hi with ⟨st, ⟨hstm, hsty⟩, rfl⟩
  refine ⟨st, hstm, rfl, ?_⟩
  simpa using hsty

/-! ## Claim theorems -/

/-- C1: exclusivity of seats.  Whenever `resoudre` succeeds, the
returned assignment lists every student of the roster exactly once, in
roster order, and the assigned positions are pairwise distinct — no
seat holds two students. -/
theorem c1_exclusivite_resoudre (cfg : SolverCfg) (salle : Salle)
    (eleves : List Eleve) (cs : List Contrainte) (aff : Affectation)
    (h : resoudre cfg salle eleves cs = .ok (some aff)) :
    aff.map Prod.fst = eleves ∧ (aff.map Prod.snd).Nodup := by
  rcases resoudre_some_inv h with ⟨d0, allowed, asn, hd0, hall, hmem, hrec⟩
  rcases feasible_asn_get hmem with ⟨hcart, hhs⟩
  rcases reconstructAux_sound hrec with ⟨hfst, hlen, hspec⟩
  refine ⟨hfst, ?_⟩
  rw [List.nodup_iff_get?_ne_get?]
  intro j1 j2 hj12 hj2len
  have hj2 : j2 < eleves.length := by
    simpa [hlen] using hj2len
  have hj1 : j1 < eleves.length := by omega
  rcases hspec j1 hj1 with ⟨i1, st1, e1, hf1, hg1, he1, ha1⟩
  rcases hspec j2 hj2 with ⟨i2, st2, e2, hf2, hg2, he2, ha2⟩
  rw [firstSeatOf] at hf1 hf2
  simp only [Nat.zero_add] at hf1 hf2
  have hx1 : xOf asn j1 i1 = true := List.find?_some hf1
  have hx2 : xOf asn j2 i2 = true := List.find?_some hf2
  have hi1S : i1 < (enumerateSeats salle cfg.geom cfg.tableOffsets).length :=
    List.mem_range.mp (List.mem_of_find?_eq_some hf1)
  have hi2S : i2 < (enumerateSeats salle cfg.geom cfg.tableOffsets).length :=
    List.mem_range.mp (List.mem_of_find?_eq_some hf2)
  have hi12 : i1 ≠ i2 := by
    intro he
    subst he
    have hcol := hardSat_cols hhs i1 hi1S
    have hnd : ((List.range eleves.length).filter (fun e => xOf asn e i1)).Nodup :=
      (List.nodup_range _).filter _
    have hm1 : j1 ∈ (List.range eleves.length).filter (fun e => xOf asn e i1) :=
      List.mem_filter.mpr ⟨List.mem_range.mpr hj1, hx1⟩
    have hm2 : j2 ∈ (List.range eleves.length).filter (fun e => xOf asn e i1) :=
      List.mem_filter.mpr ⟨List.mem_range.mpr hj2, hx2⟩
    have h2 := two_mem_le_length hnd hm1 hm2 (by omega)
    rw [colCount] at hcol
    omega
  intro heq
  have hs1 : (aff.map Prod.snd).get? j1 = some (seatPos st1) := by
    rw [List.get?_map, ha1]
    rfl
  have hs2 : (aff.map Prod.snd).get? j2 = some (seatPos st2) := by
    rw [List.get?_map, ha2]
    rfl
  rw [hs1, hs2] at heq
  have hpp : seatPos st1 = seatPos st2 := Option.some.inj heq
  have hpn : ((enumerateSeats salle cfg.geom cfg.tableOffsets).map seatPos).Nodup := by
    rw [seats_map_pos]
    exact toutesLesPlaces_nodup salle
  have hp1 : ((enumerateSeats salle cfg.geom cfg.tableOffsets).map seatPos).get? i1
      = some (seatPos st1) := by
    rw [List.get?_map, hg1]
    rfl
  have hp2 : ((enumerateSeats salle cfg.geom cfg.tableOffsets).map seatPos).get? i2
      = some (seatPos st2) := by
    rw [List.get?_map, hg2]
    rfl
  have : i1 = i2 := by
    refine List.get?_inj ?_ hpn ?_
    · simpa using hi1S
    · rw [hp1, hp2, hpp]
  exact hi12 this

/-- C1, witness: a concrete successful solve (two-seat room, one
student) to which the exclusivity theorem applies. -/
theorem c1_exclusivite_resoudre_witness :
    [(elA, (⟨0, 0, 0⟩ : Position))].map Prod.fst = [elA] ∧
    ([(elA, (⟨0, 0, 0⟩ : Position))].map Prod.snd).Nodup :=
  c1_exclusivite_resoudre cfgDefaut ⟨[[2]]⟩ [elA] []
    [(elA, ⟨0, 0, 0⟩)] (by decide)

/-- C3: the code bug exhibited.  `contraintes/types.py` defines no
member named `NO_ADJACENT` or `SIEGE_INTERDIT` and no member with value
`no_adjacent` or `forbid_seat`, while the registry decorators of
`contraintes/enregistrement.py` (run at import time) and the translator
`fabrique_ui.py` access exactly those two members, and the wire format
(and `tests/test_fabrique_ui.py`) require the two tag values.  Every
such access on the enum as written raises `AttributeError`, so the two
tags are not supported by the code as written. -/
theorem c3_types_enum_membres_manquants :
    typeContrainteAttr "NO_ADJACENT" = none ∧
    typeContrainteAttr "SIEGE_INTERDIT" = none ∧
    typeContrainteOfValue "no_adjacent" = none ∧
    typeContrainteOfValue "forbid_seat" = none ∧
    "NO_ADJACENT" ∈ registryReferencedMembers ∧
    "SIEGE_INTERDIT" ∈ registryReferencedMembers ∧
    "NO_ADJACENT" ∈ fabriqueUIReferencedMembers ∧
    "SIEGE_INTERDIT" ∈ fabriqueUIReferencedMembers ∧
    "no_adjacent" ∈ intendedTagValues ∧
    "forbid_seat" ∈ intendedTagValues := by
  refine ⟨rfl, rfl, rfl, rfl, ?_, ?_, ?_, ?_, ?_, ?_⟩ <;> decide

/-- C2, counterexample: an assignment that violates a `FrontRows`
constraint (the student sits at row 1 under `FrontRows(·, 1)`, so the
constraint is unsatisfied) which the final validator of
`SolveurCPSAT` nevertheless accepts — the validator does not re-check
the front-rows kind, refuting that it re-checks every constraint
kind. -/
theorem c2_valider_final_ignore_front_rows :
    Contrainte.estSatisfaite (.premieresRangees elA 1 "grid")
      [(elA, ⟨0, 1, 0⟩)] = false ∧
    validerFinalCPSAT cfgDefaut ⟨[[2], [2]]⟩ [(elA, ⟨0, 1, 0⟩)]
      [.premieresRangees elA 1 "grid"] = true :=
  ⟨rfl, rfl⟩

/-- C5, counterexample: the `[ForbidSeat(0,0,0), ExactSeat(ALICE,
(0,0,0))]` constraint pair — a locked placement on a seat forbidden
only by a `ForbidSeat` constraint.  (At the solver boundary:
`utils_locks.py` line 44 builds `DoitEtreExactementIci` directly and
`tasks.py` lines 380-385 call it without the `forbidden_seats`
argument, so its own lock-vs-forbidden guard is disarmed.)  The sanity
checks accept this configuration and the solve returns the no-solution
outcome; no configuration error is raised anywhere on the way. -/
theorem c5_verrou_siege_interdit_pas_erreur_config :
    sanityCheck ⟨[[2]]⟩ [elA]
      [.siegeVide 0 0 0, .exactementIci elA ⟨0, 0, 0⟩] = .ok () ∧
    resoudre cfgDefaut ⟨[[2]]⟩ [elA]
      [.siegeVide 0 0 0, .exactementIci elA ⟨0, 0, 0⟩] = .ok none := by
  refine ⟨rfl, rfl⟩

/-- C6, counterexample: a room whose first schema row is all gaps (no
table at `y = 0`, tables at `y = 1` only).  With `FrontRows(ALICE, 1)`
and no visual row data the solve succeeds and seats ALICE at
`y = 1`, which is not `< k = 1`. -/
theorem c6_front_rows_rangee_absente :
    resoudre cfgDefaut ⟨[[0], [2]]⟩ [elA]
      [.premieresRangees elA 1 "grid"]
      = .ok (some [(elA, ⟨0, 1, 0⟩)]) ∧
    (((0 : Int), (1 : Int), (0 : Int)).2.1 < (1 : Int)) = False := by
  refine ⟨by decide, by simp⟩

/-- C7, counterexample: one student subject to `EmptyNeighbor` in a
room with a single capacity-1 table.  The only conceivable assignment
(the student alone on that table) is accepted by the final validator
override, yet the solve returns no solution: the per-table CP-SAT
encoding `sum occ(T) + on(T) <= cap(T)` excludes the student from the
capacity-1 table, so `EmptyNeighbor` is not vacuously satisfied
there. -/
theorem c7_voisin_vide_capacite_un_rejete :
    resoudre cfgDefaut ⟨[[1]]⟩ [elA] [.voisinVide elA] = .ok none ∧
    validerFinalCPSAT cfgDefaut ⟨[[1]]⟩ [(elA, ⟨0, 0, 0⟩)]
      [.voisinVide elA] = true :=
  ⟨rfl, rfl⟩

/-- C10: an `ExactSeat` whose position is not a real seat of the room
makes `resoudre` raise the uncaught `KeyError` of `_seat_index_of`
(provided the pre-flight sanity checks pass, which do not look at
positions), not a no-solution result nor a configuration `ValueError`;
and for every position that IS a real seat of the room the seat-index
lookup succeeds. -/
theorem c10_exact_seat_position_inconnue_keyerror
    (cfg : SolverCfg) (salle : Salle) (eleves : List Eleve)
    (cs : List Contrainte) (e : Eleve) (p : Position)
    (hc : Contrainte.exactementIci e p ∈ cs)
    (hp : p ∉ salle.toutesLesPlaces)
    (hs : sanityCheck salle eleves cs = .ok ()) :
    isKeyError (resoudre cfg salle eleves cs) = true ∧
    ∀ q ∈ salle.toutesLesPlaces,
      isOk (seatIndexOf q (enumerateSeats salle cfg.geom cfg.tableOffsets))
        = true := by
  constructor
  · rw [resoudre, hs]
    dsimp only []
    cases hd : computeAllowedDomains cfg salle eleves cs
        (enumerateSeats salle cfg.geom cfg.tableOffsets) with
    | error er =>
        have her := computeAllowedDomains_error_shape hd
        subst her
        rfl
    | ok d0 =>
        dsimp only []
        cases ha : applyExactSeats cs eleves
            (enumerateSeats salle cfg.geom cfg.tableOffsets) d0 with
        | error er =>
            have her := applyExactSeats_error_shape ha
            subst her
            rfl
        | ok allowed =>
            exfalso
            rw [applyExactSeats] at ha
            rcases foldSteps_ok_steps ha _ hc with ⟨d2, b2, hstep⟩
            simp only [bind, Except.bind] at hstep
            rw [seatIndexOf_err_of_not_mem hp] at hstep
            simp at hstep
  · intro q hq
    rcases seatIndexOf_ok_of_mem hq with ⟨i, hi⟩
    rw [hi]
    rfl

/-- C10, witness: a one-table, two-seat room, one student pinned to the
nonexistent seat index 5 of that table: the solve raises `KeyError`,
and both real seats resolve. -/
theorem c10_exact_seat_position_inconnue_keyerror_witness :
    isKeyError (resoudre cfgDefaut ⟨[[2]]⟩ [elA]
      [Contrainte.exactementIci elA ⟨0, 0, 5⟩]) = true ∧
    ∀ q ∈ (⟨[[2]]⟩ : Salle).toutesLesPlaces,
      isOk (seatIndexOf q (enumerateSeats ⟨[[2]]⟩ cfgDefaut.geom
        cfgDefaut.tableOffsets)) = true :=
  c10_exact_seat_position_inconnue_keyerror cfgDefaut ⟨[[2]]⟩ [elA]
    [Contrainte.exactementIci elA ⟨0, 0, 5⟩] elA ⟨0, 0, 5⟩
    (by decide) (by decide) (by decide)

/-- C7 (amended): `EmptyNeighbor` is NOT vacuously satisfied on a
capacity-1 table.  In every model-feasible solution (`hardSat`), the
per-table encoding `sum(occ(T)) + on(T) <= cap(T)` leaves a free seat
on the table of the constrained student, so that table has at least
2 seats — a capacity-1 table can never host the student. -/
theorem c7_voisin_vide_table_non_pleine
    (eleves : List Eleve) (seats : List Seat) (allowed : List (List Nat))
    (cs : List Contrainte) (edges : List (Nat × Nat)) (asn : List Nat)
    (em : Eleve) (st : Seat)
    (hc : Contrainte.voisinVide em ∈ cs)
    (hm : em ∈ eleves)
    (hhs : hardSat eleves seats allowed cs edges asn = true)
    (hst : st ∈ seats)
    (hx : xOf asn (eleves.indexOf em) st.idx = true) :
    ((tableSeatIds seats st.tableKey).map (colCount asn eleves.length)).sum + 1
        ≤ (tableSeatIds seats st.tableKey).length ∧
      2 ≤ (tableSeatIds seats st.tableKey).length := by
  have hkv : (st.tableKey, tableSeatIds seats st.tableKey) ∈ seatsByTable seats := by
    rw [seatsByTable]
    refine List.mem_map.mpr ⟨st.tableKey, ?_, rfl⟩
    rw [tableKeysOf]
    exact List.mem_dedup.mpr (List.mem_map_of_mem _ hst)
  have hidm : st.idx ∈ tableSeatIds seats st.tableKey := by
    rw [tableSeatIds]
    exact List.mem_map_of_mem _ (List.mem_filter.mpr ⟨hst, by simp⟩)
  have hmain := hardSat_videTable hhs (Contrainte.voisinVide em) hc em rfl
    (st.tableKey, tableSeatIds seats st.tableKey) hkv
  dsimp only [] at hmain
  have hany : (tableSeatIds seats st.tableKey).any
      (fun i => xOf asn (eleves.indexOf em) i) = true :=
    List.any_eq_true.mpr ⟨st.idx, hidm, hx⟩
  rw [if_pos hany] at hmain
  refine ⟨hmain, ?_⟩
  have ha : eleves.indexOf em < eleves.length := List.indexOf_lt_length.mpr hm
  have hcc : 1 ≤ colCount asn eleves.length st.idx := by
    rw [colCount]
    have hmem : eleves.indexOf em
        ∈ (List.range eleves.length).filter (fun e => xOf asn e st.idx) :=
      List.mem_filter.mpr ⟨List.mem_range.mpr ha, hx⟩
    have := List.length_pos.mpr (List.ne_nil_of_mem hmem)
    omega
  have hsum : colCount asn eleves.length st.idx
      ≤ ((tableSeatIds seats st.tableKey).map (colCount asn eleves.length)).sum :=
    List.single_le_sum (fun x _ => Nat.zero_le x) _ (List.mem_map_of_mem _ hidm)
  omega

/-- C7, witness: a two-seat table hosting the constrained student: the
table is not full and has 2 seats, to which the theorem applies. -/
theorem c7_voisin_vide_table_non_pleine_witness :
    ((tableSeatIds (enumerateSeats ⟨[[2]]⟩ none []) ((0 : Int), (0 : Int))).map
        (colCount [0] 1)).sum + 1
        ≤ (tableSeatIds (enumerateSeats ⟨[[2]]⟩ none []) (0, 0)).length ∧
      2 ≤ (tableSeatIds (enumerateSeats ⟨[[2]]⟩ none []) (0, 0)).length :=
  c7_voisin_vide_table_non_pleine [elA] (enumerateSeats ⟨[[2]]⟩ none [])
    [[0, 1]] [Contrainte.voisinVide elA]
    (adjacentEdgesSameTable (enumerateSeats ⟨[[2]]⟩ none [])) [0] elA
    ⟨0, 0, 0, 0, (0, 0), 0, 0⟩
    (by decide) (by decide) (by decide) (by decide) (by decide)

/-- C5 (amended): a locked placement (an `ExactSeat` constraint) on a
forbidden TABLE is refused by the sanity checks with a configuration
error, but a locked placement on a seat forbidden only by a
`ForbidSeat` constraint is NOT: the sanity checks ignore `ForbidSeat`,
and a successful solve then returns the no-solution outcome instead —
the exact seat is removed from the student's domain, which becomes
empty. -/
theorem c5_verrou_table_vs_siege
    (cfg : SolverCfg) (salle : Salle) (eleves : List Eleve)
    (csT csS : List Contrainte) (e : Eleve) (p : Position)
    (r : Option Affectation)
    (hexactT : Contrainte.exactementIci e p ∈ csT)
    (htv : Contrainte.tableVide p.x p.y ∈ csT)
    (hexactS : Contrainte.exactementIci e p ∈ csS)
    (hsv : Contrainte.siegeVide p.x p.y p.siege ∈ csS)
    (hm : e ∈ eleves)
    (hres : resoudre cfg salle eleves csS = .ok r) :
    isErr (sanityCheck salle eleves csT) = true ∧ r = none := by
  constructor
  · rw [sanityCheck]
    split
    · rfl
    · cases hscan : exactDupScan csT [] with
      | error er => rfl
      | ok u =>
          cases u
          dsimp only []
          split
          · rfl
          next hneg =>
            exfalso
            apply hneg
            refine List.any_eq_true.mpr ⟨Contrainte.exactementIci e p, hexactT, ?_⟩
            have hmemf : (p.x, p.y) ∈ csT.filterMap (fun c => match c with
                | Contrainte.tableVide tx ty => some (tx, ty)
                | _ => none) :=
              List.mem_filterMap.mpr ⟨Contrainte.tableVide p.x p.y, htv, rfl⟩
            simpa using hmemf
  · cases r with
    | none => rfl
    | some aff =>
        exfalso
        rcases resoudre_some_inv hres with ⟨d0, allowed, asn, hd0, hall, hfeas, hrec⟩
        have ha : eleves.indexOf e < eleves.length := List.indexOf_lt_length.mpr hm
        have hlen0 : d0.length = eleves.length := computeAllowedDomains_length hd0
        have hlenA : allowed.length = d0.length := (applyExactSeats_DomLe hall).1
        rcases applyExactSeats_bound hall hexactS (by omega) with ⟨sid, hsid, hsub⟩
        rcases get?_some_of_lt (show eleves.indexOf e < allowed.length by omega)
          with ⟨l, hl⟩
        rcases get?_some_of_lt (show eleves.indexOf e < d0.length by omega)
          with ⟨l0, hl0⟩
        have hsubd0 : l ⊆ l0 := (applyExactSeats_DomLe hall).2 _ l l0 hl hl0
        have hnot : sid ∉ l0 := compute_siegeVide_excludes hd0 hsv ha hsid hl0
        rcases (cartProd_mem (feasible_asn_get hfeas).1).2 (eleves.indexOf e) l hl
          with ⟨v, hv, hvl⟩
        have hvs : v = sid := by
          have := hsub l hl hvl
          simpa using this
        exact hnot (hvs ▸ hsubd0 hvl)

/-- C5, witness: on a one-table two-seat room, pinning ALICE to seat
(0,0,0) together with `ForbidTable(0,0)` makes the sanity checks raise,
while pinning her to (0,0,0) together with `ForbidSeat(0,0,0)` solves
to the no-solution outcome. -/
theorem c5_verrou_table_vs_siege_witness :
    isErr (sanityCheck ⟨[[2]]⟩ [elA]
      [Contrainte.exactementIci elA ⟨0, 0, 0⟩, Contrainte.tableVide 0 0])
      = true ∧
    (none : Option Affectation) = none :=
  c5_verrou_table_vs_siege cfgDefaut ⟨[[2]]⟩ [elA]
    [Contrainte.exactementIci elA ⟨0, 0, 0⟩, Contrainte.tableVide 0 0]
    [Contrainte.exactementIci elA ⟨0, 0, 0⟩, Contrainte.siegeVide 0 0 0]
    elA ⟨0, 0, 0⟩ none
    (by decide) (by decide) (by decide) (by decide) (by decide) (by decide)

/-- C6 (amended): with no visual row data and no pixel geometry,
`FrontRows(e, k)` restricts `e` to the first `k` EXISTING rows
(`rows_grid[:k]`); when the room does have tables in every row
`0 .. k-1`, those first `k` existing rows all lie strictly below `k`,
so every successful solve seats `e` at `y < k`.  (The unconditional
`y < k` reading fails on rooms with missing rows — see the recorded
counterexample.) -/
theorem c6_front_rows_rangees_contigues
    (cfg : SolverCfg) (salle : Salle) (eleves : List Eleve)
    (cs : List Contrainte) (em : Eleve) (k : Int) (m : String)
    (aff : Affectation) (pos : Position)
    (hplain1 : cfg.rowMapUI = none) (hplain2 : cfg.rowOrderUI = none)
    (hplain3 : cfg.geom = none)
    (hc : Contrainte.premieresRangees em k m ∈ cs)
    (hm : em ∈ eleves) (hnd : eleves.Nodup)
    (hrows : ∀ j : Int, 0 ≤ j → j < k → ∃ t ∈ salle.tables, t.y = j)
    (hres : resoudre cfg salle eleves cs = .ok (some aff))
    (hpos : aget aff em = some pos) :
    pos.y < k := by
  rcases resoudre_some_inv hres with ⟨d0, allowed, asn, hd0, hall, hfeas, hrec⟩
  have ha : eleves.indexOf em < eleves.length := List.indexOf_lt_length.mpr hm
  rw [reconstructAff] at hrec
  rcases reconstructAux_sound hrec with ⟨hfst, hlen, hspec⟩
  rcases hspec (eleves.indexOf em) ha with ⟨i, st, e2, hf, hg, he2, haf⟩
  have hee : em = e2 := by
    have hgeteq : eleves.get ⟨eleves.indexOf em, ha⟩ = em := List.indexOf_get ha
    rw [List.get?_eq_get ha, hgeteq] at he2
    exact Option.some.inj he2
  subst hee
  have hposst : pos = seatPos st := by
    have hmemaff : (em, seatPos st) ∈ aff := List.get?_mem haf
    have hkeys : (aff.map Prod.fst).Nodup := by rw [hfst]; exact hnd
    have hdg : dget aff em = some (seatPos st) := dget_of_mem hmemaff hkeys
    rw [aget, dgetLast, dictOfList_self aff hkeys, hdg] at hpos
    exact (Option.some.inj hpos).symm
  -- the chosen seat id sits in the student's final domain
  have hlen0 : d0.length = eleves.length := computeAllowedDomains_length hd0
  have hlenA : allowed.length = d0.length := (applyExactSeats_DomLe hall).1
  rcases get?_some_of_lt (show eleves.indexOf em < allowed.length by omega)
    with ⟨l, hl⟩
  rcases get?_some_of_lt (show eleves.indexOf em < d0.length by omega)
    with ⟨l0, hl0⟩
  rcases (cartProd_mem (feasible_asn_get hfeas).1).2 (eleves.indexOf em) l hl
    with ⟨v, hv, hvl⟩
  have hiv : i = v := by
    rw [firstSeatOf, Nat.zero_add] at hf
    have hxf : xOf asn (eleves.indexOf em) i = true := List.find?_some hf
    have := xOf_true_iff.mp hxf
    rw [hv] at this
    exact (Option.some.inj this).symm
  subst hiv
  have hsub0 : l ⊆ l0 := (applyExactSeats_DomLe hall).2 _ l l0 hl hl0
  have hfront := compute_front_bound hd0 hc hm hl0
  have hifront : i ∈ idsAllowedFrontBack cfg
      (enumerateSeats salle cfg.geom cfg.tableOffsets)
      ((enumerateSeats salle cfg.geom cfg.tableOffsets).map Seat.idx)
      true k m :=
    hfront (hsub0 hvl)
  rcases mem_front_ids_plain hplain1 hplain2 hplain3 hifront
    with ⟨st2, hst2m, hst2i, hst2y⟩
  have hsame : st2 = st := by
    have g1 := mem_seats_get hst2m
    rw [hst2i] at g1
    rw [g1] at hg
    exact Option.some.inj hg
  subst hsame
  -- the first k sorted existing rows all lie below k
  have hndrows : (insSort (((enumerateSeats salle cfg.geom
      cfg.tableOffsets).map Seat.y).dedup)).Nodup :=
    insSort_nodup (List.nodup_dedup _)
  have hmemrows : ∀ j : Int, 0 ≤ j → j < k →
      j ∈ insSort (((enumerateSeats salle cfg.geom
        cfg.tableOffsets).map Seat.y).dedup) := by
    intro j hj0 hjk
    rcases hrows j hj0 hjk with ⟨t, ht, hty⟩
    have hp : (⟨t.x, t.y, 0⟩ : Position) ∈ salle.toutesLesPlaces :=
      seat_zero_mem ht
    rw [← seats_map_pos salle cfg.geom cfg.tableOffsets] at hp
    rcases List.mem_map.mp hp with ⟨st3, hst3, he3⟩
    have hy3 : st3.y = j := by
      have := congrArg Position.y he3
      simpa [seatPos, hty] using this
    rw [mem_insSort, List.mem_dedup]
    exact List.mem_map.mpr ⟨st3, hst3, hy3⟩
  have hflen := filter_lt_length_ge k _ hndrows hmemrows
  have hall_lt := sorted_take_all_lt k _
    (insSort_sorted (((enumerateSeats salle cfg.geom
      cfg.tableOffsets).map Seat.y).dedup)) k.toNat hflen
  have : st2.y < k := hall_lt _ hst2y
  rw [hposst]
  exact this

/-- C6, witness: a two-row room with tables in rows 0 and 1 and
`FrontRows(ALICE, 1)`: the theorem applies to the successful solve,
which seats ALICE at row 0 < 1. -/
theorem c6_front_rows_rangees_contigues_witness :
    ((⟨0, 0, 0⟩ : Position)).y < 1 :=
  c6_front_rows_rangees_contigues cfgDefaut ⟨[[2], [2]]⟩ [elA]
    [Contrainte.premieresRangees elA 1 "grid"] elA 1 "grid"
    [(elA, ⟨0, 0, 0⟩)] ⟨0, 0, 0⟩
    rfl rfl rfl (by decide) (by decide) (by decide)
    (by
      intro j hj0 hjk
      have hj : j = 0 := by omega
      subst hj
      exact ⟨⟨0, 0, 2⟩, by decide, rfl⟩)
    (by decide) (by decide)

/-! ## Lemma layer: what the staged translator can actually do -/

/-- A lookup among keys all different from the probe returns `none`. -/
theorem dget_eq_none_of_keys {κ ν : Type} [DecidableEq κ]
    {l : List (κ × ν)} {k : κ} (h : ∀ kv ∈ l, kv.1 ≠ k) :
    dget l k = none := by
  rw [dget]
  have hf : l.find? (fun kv => kv.1 = k) = none := by
    rw [List.find?_eq_none]
    intro kv hkv
    simp [h kv hkv]
  rw [hf]
  rfl

/-- `dinsert` preserves any property of the keys. -/
theorem dinsert_keys {κ ν : Type} [DecidableEq κ] (P : κ → Prop)
    {l : List (κ × ν)} {key : κ} {v : ν}
    (hl : ∀ kv ∈ l, P kv.1) (hk : P key) :
    ∀ kv ∈ dinsert l key v, P kv.1 := by
  intro kv hkv
  rw [dinsert] at hkv
  split at hkv
  · rcases List.mem_map.mp hkv with ⟨kv0, hkv0, heq⟩
    by_cases hc : kv0.1 = key
    · rw [if_pos hc] at heq
      rw [← heq]
      exact hk
    · rw [if_neg hc] at heq
      rw [← heq]
      exact hl kv0 hkv0
  · rcases List.mem_append.mp hkv with hin | hin
    · exact hl kv hin
    · rcases List.mem_singleton.mp hin with rfl
      exact hk

/-- `dictOfList` preserves any property of the keys. -/
theorem dictOfList_keys {κ ν : Type} [DecidableEq κ] (P : κ → Prop) :
    ∀ (l : List (κ × ν)), (∀ kv ∈ l, P kv.1) →
      ∀ kv ∈ dictOfList l, P kv.1 := by
  have aux : ∀ (l acc : List (κ × ν)), (∀ kv ∈ l, P kv.1) →
      (∀ kv ∈ acc, P kv.1) →
      ∀ kv ∈ l.foldl (fun acc kv => dinsert acc kv.1 kv.2) acc, P kv.1 := by
    intro l
    induction l with
    | nil =>
        intro acc _ hacc kv hkv
        exact hacc kv hkv
    | cons p rest ih =>
        intro acc hl hacc kv hkv
        rw [List.foldl_cons] at hkv
        exact ih _ (fun kv2 h2 => hl kv2 (List.mem_cons_of_mem _ h2))
          (dinsert_keys P hacc (hl p (List.mem_cons_self _ _))) kv hkv
  intro l hl kv hkv
  exact aux l [] hl (by intro kv2 h2; simp at h2) kv hkv

/-- Every key of the `{e.nom: e}` index is a bound method, so a string
lookup always misses. -/
theorem indexElevesParNom_chaine_none (eleves : List Eleve) (nom : String) :
    dget (indexElevesParNom eleves) (NomCle.chaine nom) = none := by
  apply dget_eq_none_of_keys
  intro kv hkv
  have hme : ∃ e, kv.1 = NomCle.methode e := by
    refine dictOfList_keys (fun k => ∃ e, k = NomCle.methode e) _ ?_ kv hkv
    intro kv2 hkv2
    rcases List.mem_map.mp hkv2 with ⟨e, _, rfl⟩
    exact ⟨e, rfl⟩
  rcases hme with ⟨e, he⟩
  rw [he]
  intro hcontra
  exact NomCle.noConfusion hcontra

/-- The `exact_seat` factory always raises `KeyError` on the translator
context: its name lookup probes the method-keyed index with a
string. -/
theorem contrainteDepuisCode_exact_keyerror (salle : Salle)
    (eleves : List Eleve) (nom : String) (x y s : Int) :
    contrainteDepuisCode
      [("type", WVal.wStr "exact_seat"), ("eleve", WVal.wStr nom),
       ("x", WVal.wInt x), ("y", WVal.wInt y), ("seat", WVal.wInt s)]
      ⟨salle, indexElevesParNom eleves⟩ = .error (.keyError nom) := by
  have hnone : dget (indexElevesParNom eleves) (NomCle.chaine nom) = none :=
    indexElevesParNom_chaine_none eleves nom
  show Except.bind (reqEleve ⟨salle, indexElevesParNom eleves⟩ nom)
      (fun e => Except.ok (Contrainte.exactementIci e ⟨x, y, s⟩))
    = .error (.keyError nom)
  rw [reqEleve]
  dsimp only []
  rw [hnone]
  rfl

/-- Every per-descriptor step either skips (a marker) or raises. -/
theorem processDesc_ok_none {ctx : ContexteFabrique}
    {id2nom : List (Int × String)} {c : Desc} {r : Option Contrainte}
    (h : processDesc ctx id2nom c = .ok r) : r = none := by
  rw [processDesc] at h
  split at h
  · exact (Except.ok.inj h).symm
  · exact absurd h (by simp)

/-- A successful run of the main loop emits no constraint. -/
theorem processAll_ok_nil {ctx : ContexteFabrique}
    {id2nom : List (Int × String)} :
    ∀ {l : List Desc} {out : List Contrainte},
      processAll ctx id2nom l = .ok out → out = [] := by
  intro l
  induction l with
  | nil =>
      intro out h
      rw [processAll] at h
      exact (Except.ok.inj h).symm
  | cons c rest ih =>
      intro out h
      rw [processAll] at h
      simp only [bind, Except.bind] at h
      cases hd : processDesc ctx id2nom c with
      | error e => rw [hd] at h; exact absurd h (by simp)
      | ok r =>
          rw [hd] at h
          cases hr : processAll ctx id2nom rest with
          | error e => rw [hr] at h; exact absurd h (by simp)
          | ok out2 =>
              rw [hr] at h
              have hout2 := ih hr
              subst hout2
              have hrnone := processDesc_ok_none hd
              subst hrnone
              exact (Except.ok.inj h).symm

/-- A successful run of the forbidden-keys stage emits no
constraint. -/
theorem forbidGo_ok_nil {ctx : ContexteFabrique}
    {deja : List (Int × Int × Int)} :
    ∀ {ks : List String} {out : List Contrainte},
      forbidGo ctx deja ks = .ok out → out = [] := by
  intro ks
  induction ks with
  | nil =>
      intro out h
      rw [forbidGo] at h
      exact (Except.ok.inj h).symm
  | cons k rest ih =>
      intro out h
      rw [forbidGo] at h
      simp only [bind, Except.bind] at h
      cases hk : keyForbid k with
      | error e => rw [hk] at h; exact absurd h (by simp)
      | ok xys =>
          obtain ⟨x, y, s⟩ := xys
          rw [hk] at h
          dsimp only [] at h
          split at h
          · exact ih h
          · exact absurd h (by simp)

/-- A successful run of the placements stage emits no constraint. -/
theorem placeGo_ok_nil {salle : Salle} {eleves : List Eleve}
    {id2nom : List (Int × String)} {deja : List NomCle} :
    ∀ {ps : List (String × Int)} {out : List Contrainte},
      placeGo ⟨salle, indexElevesParNom eleves⟩ id2nom deja ps = .ok out →
      out = [] := by
  intro ps
  induction ps with
  | nil =>
      intro out h
      rw [placeGo] at h
      exact (Except.ok.inj h).symm
  | cons p rest ih =>
      intro out h
      obtain ⟨k, sid⟩ := p
      rw [placeGo] at h
      simp only [bind, Except.bind] at h
      cases hk : keyForbid k with
      | error e => rw [hk] at h; exact absurd h (by simp)
      | ok xys =>
          obtain ⟨x, y, s⟩ := xys
          rw [hk] at h
          dsimp only [] at h
          cases hn : dget id2nom sid with
          | none => rw [hn] at h; exact ih h
          | some nom =>
              rw [hn] at h
              dsimp only [] at h
              split at h
              · exact ih h
              · rw [contrainteDepuisCode_exact_keyerror] at h
                exact absurd h (by simp)

/-- C4: the code bug exhibited.  A unary-tag wire descriptor — in
particular one that references a student id absent from the
id-to-name map — makes the translator raise `AttributeError` at the
tag-set evaluation of `fabrique_ui.py` lines 60-67
(`TypeContrainte.NO_ADJACENT` does not exist), BEFORE the student id
is even read: the failure is the same for an unknown and for a known
id.  Neither the unknown-id configuration error the spec prescribes
nor the silent `continue` of the unreachable lines 72-74 can ever
execute. -/
theorem c4_traducteur_descripteur_attributeerror
    (salle : Salle) (eleves : List Eleve) (payload : List (Int × String))
    (c : Desc) (typ : String)
    (htypv : pyStrip (pyStr ((dget c "type").getD (.wStr ""))) = typ)
    (htyp : typ ∈ unaryTags) :
    processDesc ⟨salle, indexElevesParNom eleves⟩ (id2nomMap payload) c
      = .error (.attributeError
          "type object TypeContrainte has no attribute NO_ADJACENT") := by
  rw [processDesc]
  rw [htypv]
  simp only [unaryTags] at htyp
  fin_cases htyp <;> rfl

/-- C4, witness: a `solo_table` descriptor referencing the UNKNOWN id 2
and one referencing the KNOWN id 1 (roster `{1 : ALICE}`) raise the
very same `AttributeError`. -/
theorem c4_traducteur_descripteur_attributeerror_witness :
    processDesc ⟨⟨[[2]]⟩, indexElevesParNom [elA]⟩ (id2nomMap [(1, "ALICE")])
        [("type", WVal.wStr "solo_table"), ("eleve", WVal.wInt 2)]
      = .error (.attributeError
          "type object TypeContrainte has no attribute NO_ADJACENT") ∧
    processDesc ⟨⟨[[2]]⟩, indexElevesParNom [elA]⟩ (id2nomMap [(1, "ALICE")])
        [("type", WVal.wStr "solo_table"), ("eleve", WVal.wInt 1)]
      = .error (.attributeError
          "type object TypeContrainte has no attribute NO_ADJACENT") :=
  ⟨c4_traducteur_descripteur_attributeerror ⟨[[2]]⟩ [elA] [(1, "ALICE")]
      [("type", WVal.wStr "solo_table"), ("eleve", WVal.wInt 2)] "solo_table"
      (by decide) (by decide),
    c4_traducteur_descripteur_attributeerror ⟨[[2]]⟩ [elA] [(1, "ALICE")]
      [("type", WVal.wStr "solo_table"), ("eleve", WVal.wInt 1)] "solo_table"
      (by decide) (by decide)⟩

/-- C9: the code bug exhibited.  (1) The translator as written can
never produce a constraint: every successful run of
`fabrique_contraintes_ui` returns the EMPTY list — a non-marker
descriptor raises `AttributeError` at the unary tag-set evaluation, an
unrepresented forbidden key raises `AttributeError` when the
`forbid_seat` code dict is built, and a processed placement raises
`KeyError` inside `_fab_exact_seat` (the name index is keyed by the
bound method `Eleve.nom`).  (2) Serialization is not the data-only
stable record the spec promises: `code_machine` of a
student-referencing constraint stores the bound method itself, and of
a `ForbidSeat` raises `AttributeError`.  The round-trip property
therefore has no non-trivial instance in the program. -/
theorem c9_traduction_vide_et_serialisation_non_donnees :
    (∀ (salle : Salle) (eleves : List Eleve) (payload : List (Int × String))
       (ui : List Desc) (keys : List String) (places : List (String × Int))
       (b : Bool) (out : List Contrainte),
       fabriqueContraintesUI salle eleves payload ui keys places b = .ok out →
       out = []) ∧
    (∀ e : Eleve, Contrainte.codeMachine (.seulATable e)
       = .ok [("type", WVal.wStr "solo_table"), ("eleve", WVal.wMeth e)]) ∧
    (∀ x y s : Int, Contrainte.codeMachine (.siegeVide x y s)
       = .error (.attributeError
           "type object TypeContrainte has no attribute SIEGE_INTERDIT")) := by
  refine ⟨?_, fun e => rfl, fun x y s => rfl⟩
  intro salle eleves payload ui keys places b out h
  rw [fabriqueContraintesUI] at h
  simp only [bind, Except.bind] at h
  split at h
  · exact absurd h (by simp)
  next out1 hpa =>
    have h1 := processAll_ok_nil hpa
    subst h1
    split at h
    · exact absurd h (by simp)
    next news2 hfg =>
      have h2 := forbidGo_ok_nil hfg
      subst h2
      split at h
      · split at h
        · exact absurd h (by simp)
        next news3 hpl =>
          have h3 := placeGo_ok_nil hpl
          subst h3
          simpa using (Except.ok.inj h).symm
      · simpa using (Except.ok.inj h).symm

/-- C9, witness: a concrete successful translation (one batch-marker
descriptor, nothing else) really returns the empty list, and the
serialization facts at ALICE / seat (0,0,1). -/
theorem c9_traduction_vide_et_serialisation_non_donnees_witness :
    ([] : List Contrainte) = [] ∧
    Contrainte.codeMachine (.seulATable elA)
      = .ok [("type", WVal.wStr "solo_table"), ("eleve", WVal.wMeth elA)] ∧
    Contrainte.codeMachine (.siegeVide 0 0 1)
      = .error (.attributeError
          "type object TypeContrainte has no attribute SIEGE_INTERDIT") :=
  ⟨c9_traduction_vide_et_serialisation_non_donnees.1 ⟨[[2]]⟩ [elA]
      [(1, "ALICE")] [[("type", WVal.wStr "_batch_marker_")]] [] [] true []
      (by decide),
    c9_traduction_vide_et_serialisation_non_donnees.2.1 elA,
    c9_traduction_vide_et_serialisation_non_donnees.2.2 0 0 1⟩

/-- With pairwise-distinct assigned positions, the per-table seat →
student lists of `valider_final` have distinct seat keys. -/
theorem occ_keys_nodup (aff : Affectation) (x y : Int)
    (hv : (aff.map Prod.snd).Nodup) :
    ((aff.filterMap (fun ep =>
      if ep.2.x = x && ep.2.y = y then some (ep.2.siege, ep.1) else none)).map
        Prod.fst).Nodup := by
  induction aff with
  | nil => simp
  | cons ep rest ih =>
      rw [List.map_cons, List.nodup_cons] at hv
      rw [List.filterMap_cons]
      by_cases hcond : (ep.2.x = x && ep.2.y = y) = true
      · rw [if_pos hcond]
        rw [List.map_cons, List.nodup_cons]
        refine ⟨?_, ih hv.2⟩
        intro hmem
        rcases List.mem_map.mp hmem with ⟨kv2, hkv2mem, hfst⟩
        rcases List.mem_filterMap.mp hkv2mem with ⟨ep2, hep2, hf2⟩
        by_cases hcond2 : (ep2.2.x = x && ep2.2.y = y) = true
        · rw [if_pos hcond2] at hf2
          cases hf2
          simp only [Bool.and_eq_true, decide_eq_true_eq] at hcond hcond2
          have hx : ep2.2.x = ep.2.x := by rw [hcond2.1, hcond.1]
          have hy : ep2.2.y = ep.2.y := by rw [hcond2.2, hcond.2]
          have hs : ep2.2.siege = ep.2.siege := hfst
          have hpeq : ep2.2 = ep.2 := by
            have h1 : (⟨ep2.2.x, ep2.2.y, ep2.2.siege⟩ : Position)
                = ⟨ep.2.x, ep.2.y, ep.2.siege⟩ := by rw [hx, hy, hs]
            exact h1
          exact hv.1 (List.mem_map.mpr ⟨ep2, hep2, hpeq⟩)
        · rw [if_neg hcond2] at hf2
          exact absurd hf2 (by simp)
      · rw [if_neg hcond]
        exact ih hv.2

/-- Under distinct student keys and distinct positions, `by_xy` is the
raw filtered list itself. -/
theorem occXYitems_eq (aff : Affectation) (x y : Int)
    (hk : (aff.map Prod.fst).Nodup) (hv : (aff.map Prod.snd).Nodup) :
    occXYitems aff x y = aff.filterMap (fun ep =>
      if ep.2.x = x && ep.2.y = y then some (ep.2.siege, ep.1) else none) := by
  rw [occXYitems, aitems, dictOfList_self aff hk,
    dictOfList_self _ (occ_keys_nodup aff x y hv)]

/-- C2 (amended): the final validator of `SolveurCPSAT` does reject any
assignment (with distinct students and distinct seats, under a plain
configuration) that violates one of the five kinds it re-checks through
their satisfaction predicates: SoloAtTable, NoAdjacentNeighbor,
FarApart, SameTable, Adjacent.  (It does NOT re-check FrontRows,
BackRows, ExactSeat, ForbidTable or ForbidSeat — see the recorded
counterexample — so the "every constraint kind" reading is false.) -/
theorem c2_valider_final_rejette_kinds_verifies
    (cfg : SolverCfg) (salle : Salle) (aff : Affectation)
    (cs : List Contrainte) (c : Contrainte)
    (hgeom : cfg.geom = none)
    (hk : (aff.map Prod.fst).Nodup)
    (hv : (aff.map Prod.snd).Nodup)
    (hc : c ∈ cs)
    (hkind : kindVerifie c = true)
    (hviol : c.estSatisfaite aff = false) :
    validerFinalCPSAT cfg salle aff cs = false := by
  have unaireFalse : checkUnaire aff c = false →
      validerFinalCPSAT cfg salle aff cs = false := by
    intro hu
    rw [validerFinalCPSAT]
    have hA : cs.all (checkUnaire aff) = false := by
      rw [List.all_eq_false]
      exact ⟨c, hc, by simp [hu]⟩
    rw [hA]
    rfl
  have binaireFalse : checkBinaire cfg aff c = false →
      validerFinalCPSAT cfg salle aff cs = false := by
    intro hb
    rw [validerFinalCPSAT]
    have hB : cs.all (checkBinaire cfg aff) = false := by
      rw [List.all_eq_false]
      exact ⟨c, hc, by simp [hb]⟩
    rw [hB]
    simp
  cases c with
  | seulATable em =>
      refine unaireFalse ?_
      simp only [Contrainte.estSatisfaite] at hviol
      rw [checkUnaire]
      cases hag : aget aff em with
      | none => rw [hag] at hviol; simp at hviol
      | some pos =>
          rw [hag] at hviol
          rw [aitems, dictOfList_self aff hk] at hviol
          have hany : aff.any
              (fun ap => ap.1 ≠ em && memeTableB pos ap.2) = true := by
            simpa using hviol
          rcases List.any_eq_true.mp hany with ⟨ap, hapmem, happ⟩
          simp only [Bool.and_eq_true, decide_eq_true_eq, memeTableB] at happ
          obtain ⟨hne, hx, hy⟩ := happ
          show (!((occXYitems aff pos.x pos.y).any
            (fun se => se.2 ≠ em))) = false
          rw [occXYitems_eq aff pos.x pos.y hk hv]
          simp only [Bool.not_eq_false']
          refine List.any_eq_true.mpr ⟨(ap.2.siege, ap.1), ?_, ?_⟩
          · refine List.mem_filterMap.mpr ⟨ap, hapmem, ?_⟩
            rw [if_pos (by simp [hx.symm, hy.symm])]
          · simpa using hne
  | noAdjacent em =>
      refine unaireFalse ?_
      simp only [Contrainte.estSatisfaite] at hviol
      rw [checkUnaire]
      cases hag : aget aff em with
      | none => rw [hag] at hviol; simp at hviol
      | some pos =>
          rw [hag] at hviol
          rw [aitems, dictOfList_self aff hk] at hviol
          have hany : aff.any (fun ap =>
              ap.1 ≠ em && ap.2.x = pos.x && ap.2.y = pos.y &&
                (ap.2.siege - pos.siege).natAbs = 1) = true := by
            simpa using hviol
          rcases List.any_eq_true.mp hany with ⟨ap, hapmem, happ⟩
          simp only [Bool.and_eq_true, decide_eq_true_eq] at happ
          obtain ⟨⟨⟨hne, hx⟩, hy⟩, hs⟩ := happ
          have hmemocc : (ap.2.siege, ap.1) ∈ aff.filterMap (fun ep =>
              if ep.2.x = pos.x && ep.2.y = pos.y then
                some (ep.2.siege, ep.1) else none) := by
            refine List.mem_filterMap.mpr ⟨ap, hapmem, ?_⟩
            rw [if_pos (by simp [hx, hy])]
          have hdg : dget (aff.filterMap (fun ep =>
              if ep.2.x = pos.x && ep.2.y = pos.y then
                some (ep.2.siege, ep.1) else none)) ap.2.siege = some ap.1 :=
            dget_of_mem hmemocc (occ_keys_nodup aff pos.x pos.y hv)
          show (!((match dget (occXYitems aff pos.x pos.y) (pos.siege - 1) with
              | some e2 => (decide (e2 ≠ em))
              | none => false) ||
              (match dget (occXYitems aff pos.x pos.y) (pos.siege + 1) with
              | some e2 => (decide (e2 ≠ em))
              | none => false))) = false
          rw [occXYitems_eq aff pos.x pos.y hk hv]
          have hcases : ap.2.siege = pos.siege + 1 ∨ ap.2.siege = pos.siege - 1 := by
            omega
          rcases hcases with hcase | hcase
          · rw [hcase] at hdg
            rw [hdg]
            simp [hne]
          · rw [hcase] at hdg
            rw [hdg]
            simp [hne]
  | memeTable a b =>
      refine binaireFalse ?_
      simp only [Contrainte.estSatisfaite] at hviol
      rw [checkBinaire]
      cases haa : aget aff a with
      | none => rfl
      | some pa =>
          rw [haa] at hviol
          cases hab : aget aff b with
          | none => rfl
          | some pb => rw [hab] at hviol; exact hviol
  | adjacents a b =>
      refine binaireFalse ?_
      simp only [Contrainte.estSatisfaite] at hviol
      rw [checkBinaire]
      cases haa : aget aff a with
      | none => rfl
      | some pa =>
          rw [haa] at hviol
          cases hab : aget aff b with
          | none => rfl
          | some pb => rw [hab] at hviol; exact hviol
  | eloignes a b d metric enPix =>
      refine binaireFalse ?_
      simp only [Contrainte.estSatisfaite] at hviol
      rw [checkBinaire]
      cases haa : aget aff a with
      | none => rw [haa] at hviol; simp at hviol
      | some pa =>
          rw [haa] at hviol
          cases hab : aget aff b with
          | none => rw [hab] at hviol; simp at hviol
          | some pb =>
              rw [hab] at hviol
              rw [hgeom]
              have hlt : Int.ofNat ((pa.x - pb.x).natAbs + (pa.y - pb.y).natAbs)
                  < d := by
                have hv2 : decide (d ≤ distanceManhattan pa pb) = false := hviol
                have h1 : ¬(d ≤ distanceManhattan pa pb) :=
                  of_decide_eq_false hv2
                rw [distanceManhattan] at h1
                rw [Int.ofNat_eq_natCast, Nat.cast_add]
                omega
              cases hup : (enPix || decide (metric = "px")) with
              | false =>
                  show (!(decide (Int.ofNat ((pa.x - pb.x).natAbs
                    + (pa.y - pb.y).natAbs) < d))) = false
                  rw [decide_eq_true hlt]
                  rfl
              | true =>
                  show (!(decide (Int.ofNat ((pa.x - pb.x).natAbs
                    + (pa.y - pb.y).natAbs) < d))) = false
                  rw [decide_eq_true hlt]
                  rfl
  | premieresRangees e k m => simp [kindVerifie] at hkind
  | dernieresRangees e k my m => simp [kindVerifie] at hkind
  | voisinVide e => simp [kindVerifie] at hkind
  | exactementIci e p => simp [kindVerifie] at hkind
  | tableVide x y => simp [kindVerifie] at hkind
  | siegeVide x y s => simp [kindVerifie] at hkind

/-- C2, witness: a `SameTable(ALICE, BOB)` violation (they sit at
different tables) is rejected by the final validator, as the theorem
states. -/
theorem c2_valider_final_rejette_kinds_verifies_witness :
    validerFinalCPSAT cfgDefaut ⟨[[2]]⟩
      [(elA, ⟨0, 0, 0⟩), (elB, ⟨1, 0, 0⟩)]
      [Contrainte.memeTable elA elB] = false :=
  c2_valider_final_rejette_kinds_verifies cfgDefaut ⟨[[2]]⟩
    [(elA, ⟨0, 0, 0⟩), (elB, ⟨1, 0, 0⟩)]
    [Contrainte.memeTable elA elB] (Contrainte.memeTable elA elB)
    rfl (by decide) (by decide) (by decide) (by decide) (by decide)

end Plandeclasse
